import Mathlib

/-! Verification of `static/js/main.js`

A shallow embedding of the page behaviours of `static/js/main.js`
(required-field validation, date-time defaults and ordering guard, table
sorting, password confirmation, flash-message timers) together with the
properties stated for them.

Conventions of the embedding:

* a JavaScript string is a Lean `String`; the built-in string methods used by
  the script (`trim`, `padStart`, `String(n)`) are written out from their
  ECMAScript definitions;
* a handler that mutates the document is a function from the state before the
  event to the state after it; `alert` appends to a log of shown messages;
* a statement that can throw returns `Except JsError`;
* platform functions whose value the script only consumes
  (`localeCompare`, `Date` parsing, local-time getters) are parameters.
-/

namespace MainJs

/-! ## JavaScript strings -/

/-- ECMAScript `WhiteSpace` and `LineTerminator` code points, the characters
removed by `String.prototype.trim`. -/
def isTrimChar (c : Char) : Bool :=
  let n := c.toNat
  n = 0x09 || n = 0x0A || n = 0x0B || n = 0x0C || n = 0x0D || n = 0x20 ||
  n = 0xA0 || n = 0x1680 || (0x2000 ≤ n && n ≤ 0x200A) || n = 0x2028 ||
  n = 0x2029 || n = 0x202F || n = 0x205F || n = 0x3000 || n = 0xFEFF

/-- Characters of `s` without the leading trim characters. -/
def trimStartChars (l : List Char) : List Char := l.dropWhile isTrimChar

/-- Characters of `s` without the trailing trim characters. -/
def trimEndChars (l : List Char) : List Char := (l.reverse.dropWhile isTrimChar).reverse

/-- `String.prototype.trim`. -/
def jsTrim (s : String) : String := ⟨trimEndChars (trimStartChars s.data)⟩

/-- JavaScript truthiness of a string: only the empty string is falsy. -/
def truthy (s : String) : Bool := !(s.data.isEmpty)

/-- Errors a statement of the script can throw. -/
inductive JsError where
  | typeError : JsError
  deriving DecidableEq, Repr

/-! ## Required-field form validator (`validateForm`) -/

/-- An `input[required]` element of a form: its value and the border colour
the handler writes. -/
structure RequiredInput where
  value : String
  borderColor : String
  deriving DecidableEq, Repr

/-- A form element with its required inputs, in document order. -/
structure Form where
  inputs : List RequiredInput
  deriving DecidableEq, Repr

/-- What a submit attempt leaves behind: the form, whether the event default
was prevented, and the alerts shown. -/
structure SubmitOutcome where
  form : Form
  defaultPrevented : Bool
  alerts : List String
  deriving DecidableEq, Repr

/-- The fixed message of the validator. -/
def requiredMessage : String := "请填写所有必填项"

/-- Body of `inputs.forEach(...)`: one input, given the flag so far. -/
def checkInput (acc : Bool × List RequiredInput) (input : RequiredInput) :
    Bool × List RequiredInput :=
  if !(truthy (jsTrim input.value)) then
    (false, acc.2 ++ [{ input with borderColor := "#e74c3c" }])
  else
    (acc.1, acc.2 ++ [{ input with borderColor := "#ddd" }])

/-- The submit listener installed by `validateForm`. -/
def submitHandler (form : Form) : SubmitOutcome :=
  let r := form.inputs.foldl checkInput (true, [])
  let isValid := r.1
  if !isValid then
    { form := { inputs := r.2 }, defaultPrevented := true, alerts := [requiredMessage] }
  else
    { form := { inputs := r.2 }, defaultPrevented := false, alerts := [] }

/-- `validateForm(formId)`: the listener installed on the form found under
`formId`, none when `getElementById` finds nothing. -/
def validateForm (getElementById : String → Option Form) (formId : String) :
    Option (Form → SubmitOutcome) :=
  match getElementById formId with
  | none => none
  | some _ => some submitHandler

/-! ## Password confirmation matcher -/

/-- The fixed message of the password matcher. -/
def mismatchMessage : String := "两次输入的密码不一致"

/-- The password page: the values of `#password` and `#confirm_password` when
the elements exist, and the custom validity message of the confirm field. -/
structure PasswordPage where
  password : Option String
  confirm : Option String
  customValidity : String
  deriving DecidableEq, Repr

/-- Body of the input listener of the confirm field. -/
def confirmInputListener (passwordValue confirmValue : String) : String :=
  if passwordValue ≠ confirmValue then mismatchMessage else ""

/-- Events on the password page: the user edits one of the two fields. -/
inductive PasswordEvent where
  | inputPassword (newValue : String)
  | inputConfirm (newValue : String)
  deriving DecidableEq, Repr

/-- One event on the password page: the browser stores the typed value, then
runs the listeners attached to that field. The only listener is the one on the
confirm field, attached on page ready when both fields exist. -/
def passwordStep (p : PasswordPage) : PasswordEvent → PasswordPage
  | .inputPassword v =>
    match p.password with
    | none => p
    | some _ => { p with password := some v }
  | .inputConfirm v =>
    match p.confirm, p.password with
    | none, _ => p
    | some _, none => { p with confirm := some v }
    | some _, some pw =>
      { p with confirm := some v, customValidity := confirmInputListener pw v }

/-! ## JavaScript numbers and dates -/

/-- An integer-valued Number, none for NaN. Every number the script computes
with is an integer below 2^53 in absolute value or NaN, so the arithmetic is
exact. -/
abbrev JsNumber := Option Int

/-- Number addition. -/
def numAdd (a b : JsNumber) : JsNumber :=
  match a, b with
  | some x, some y => some (x + y)
  | _, _ => none

/-- `String(n)` and template-literal conversion of a Number. -/
def numberToString : JsNumber → String
  | none => "NaN"
  | some (.ofNat n) => Nat.repr n
  | some (.negSucc n) => "-" ++ Nat.repr (n + 1)

/-- `String.prototype.padStart(targetLength, fillString)`. -/
def padStart (s : String) (targetLength : Nat) (fillString : String) : String :=
  if targetLength ≤ s.length then s
  else if fillString.data.isEmpty then s
  else
    let fillLen := targetLength - s.length
    ⟨((List.replicate fillLen fillString.data).flatten.take fillLen) ++ s.data⟩

/-- A Date object: its time value in milliseconds since the epoch, none for an
Invalid Date (time value NaN). -/
abbrev JsDate := Option Int

/-- Largest time value of a Date, 8.64e15 ms. -/
def maxTimeValue : Int := 8640000000000000

/-- `new Date(value)` for a Number: the time value is clipped to the Date
range (`TimeClip`). -/
def newDate (value : JsNumber) : JsDate :=
  match value with
  | none => none
  | some t => if -maxTimeValue ≤ t ∧ t ≤ maxTimeValue then some t else none

/-- `Date.prototype.getTime`. -/
def getTime (d : JsDate) : JsNumber := d

/-- The local-time decomposition of a time value, provided by the platform
(it depends on the time zone of the browser). -/
structure LocalTime where
  year : Int → Int
  month : Int → Nat
  day : Int → Nat
  hours : Int → Nat
  minutes : Int → Nat

/-- `Date.prototype.getFullYear`. -/
def getFullYear (lt : LocalTime) (d : JsDate) : JsNumber := d.map lt.year

/-- `Date.prototype.getMonth` (zero-based). -/
def getMonth (lt : LocalTime) (d : JsDate) : JsNumber := d.map (fun t => (lt.month t : Int))

/-- `Date.prototype.getDate`. -/
def getDate (lt : LocalTime) (d : JsDate) : JsNumber := d.map (fun t => (lt.day t : Int))

/-- `Date.prototype.getHours`. -/
def getHours (lt : LocalTime) (d : JsDate) : JsNumber := d.map (fun t => (lt.hours t : Int))

/-- `Date.prototype.getMinutes`. -/
def getMinutes (lt : LocalTime) (d : JsDate) : JsNumber := d.map (fun t => (lt.minutes t : Int))

/-- The ranges ECMAScript guarantees for the local-time getters at `t`. -/
def LocalTime.InRange (lt : LocalTime) (t : Int) : Prop :=
  lt.month t < 12 ∧ 1 ≤ lt.day t ∧ lt.day t ≤ 31 ∧ lt.hours t < 24 ∧ lt.minutes t < 60

/-- `date1 <= date2` on Date objects: both are converted to their time values
and any comparison with NaN is false. -/
def dateLe (a b : JsDate) : Bool :=
  match a, b with
  | some x, some y => decide (x ≤ y)
  | _, _ => false

/-! ## Start/end time defaults and ordering guard -/

/-- `formatDateTime` of the page-ready handler. -/
def formatDateTime (lt : LocalTime) (date : JsDate) : String :=
  let year := getFullYear lt date
  let month := padStart (numberToString (numAdd (getMonth lt date) (some 1))) 2 "0"
  let day := padStart (numberToString (getDate lt date)) 2 "0"
  let hours := padStart (numberToString (getHours lt date)) 2 "0"
  let minutes := padStart (numberToString (getMinutes lt date)) 2 "0"
  numberToString year ++ "-" ++ month ++ "-" ++ day ++ "T" ++ hours ++ ":" ++ minutes

/-- The page with the task form: the values of `#start_time` and `#end_time`
(none when the element is absent), whether the change listener of the end
field is attached, and the alerts shown so far. -/
structure TimePage where
  startTime : Option String
  endTime : Option String
  changeListener : Bool
  alerts : List String
  deriving DecidableEq, Repr

/-- The fixed message of the ordering guard. -/
def orderMessage : String := "结束时间必须晚于开始时间"

/-- The page-ready handler of the task form; `nowMs` is the time value of
`new Date()`. -/
def initTimeDefaults (lt : LocalTime) (nowMs : Int) (p : TimePage) : TimePage :=
  match p.startTime, p.endTime with
  | some startValue, some endValue =>
    let now : JsDate := some nowMs
    let later := newDate (numAdd (getTime now) (some (2 * 60 * 60 * 1000)))
    let startValue1 := if !(truthy startValue) then formatDateTime lt now else startValue
    let endValue1 := if !(truthy endValue) then formatDateTime lt later else endValue
    { p with startTime := some startValue1, endTime := some endValue1, changeListener := true }
  | _, _ => p

/-- Body of the change listener of the end field; `dateParse` is the platform
parser behind `new Date(string)`. -/
def endChangeListener (dateParse : String → JsDate) (p : TimePage) : TimePage :=
  match p.startTime, p.endTime with
  | some startValue, some endValue =>
    if truthy startValue && truthy endValue then
      if dateLe (dateParse endValue) (dateParse startValue) then
        { p with alerts := p.alerts ++ [orderMessage], endTime := some "" }
      else p
    else p
  | _, _ => p

/-- A change event on the end field: the browser stores the new value, then
runs the listener when it is attached. -/
def changeEnd (dateParse : String → JsDate) (p : TimePage) (newValue : String) : TimePage :=
  match p.endTime with
  | none => p
  | some _ =>
    if p.changeListener then endChangeListener dateParse { p with endTime := some newValue }
    else { p with endTime := some newValue }

/-! ### Reading a formatted date-time back -/

/-- The five numeric fields of a `YYYY-MM-DDTHH:mm` string. -/
structure MinuteFields where
  year : Nat
  month : Nat
  day : Nat
  hours : Nat
  minutes : Nat
  deriving DecidableEq, Repr

/-- Value of a decimal digit character. -/
def digitValue (c : Char) : Option Nat :=
  if c.isDigit then some (c.toNat - 48) else none

/-- Value of a run of decimal digits. -/
def readNat (cs : List Char) : Option Nat :=
  cs.foldl (fun acc c => match acc, digitValue c with
    | some a, some d => some (a * 10 + d)
    | _, _ => none) (some 0)

/-- Reads the fields of a 16-character `YYYY-MM-DDTHH:mm` string: four digits,
`-`, two digits, `-`, two digits, `T`, two digits, `:`, two digits. -/
def readFields (s : String) : Option MinuteFields :=
  match s.data with
  | [y1, y2, y3, y4, s1, m1, m2, s2, d1, d2, s3, h1, h2, s4, n1, n2] =>
    if s1 = '-' ∧ s2 = '-' ∧ s3 = 'T' ∧ s4 = ':' then
      match readNat [y1, y2, y3, y4], readNat [m1, m2], readNat [d1, d2],
          readNat [h1, h2], readNat [n1, n2] with
      | some y, some m, some d, some h, some n => some ⟨y, m, d, h, n⟩
      | _, _, _, _, _ => none
    else none
  | _ => none

/-! ### A concrete platform: UTC as the local time zone -/

/-- Civil date of a day number (days since 1970-01-01), proleptic Gregorian
calendar: year, month 1..12, day 1..31. -/
def civilFromDays (days : Int) : Int × Nat × Nat :=
  let z := days + 719468
  let era := z / 146097
  let doe := (z - era * 146097).toNat
  let yoe := (doe - doe / 1460 + doe / 36524 - doe / 146096) / 365
  let doy := doe - (365 * yoe + yoe / 4 - yoe / 100)
  let mp := (5 * doy + 2) / 153
  let d := doy - (153 * mp + 2) / 5 + 1
  let m := if mp < 10 then mp + 3 else mp - 9
  let y := (yoe : Int) + era * 400
  (if m ≤ 2 then y + 1 else y, m, d)

/-- Day number of a civil date, inverse of `civilFromDays`. -/
def daysFromCivil (year : Int) (month day : Nat) : Int :=
  let y := if month ≤ 2 then year - 1 else year
  let era := y / 400
  let yoe := (y - era * 400).toNat
  let mp := if month > 2 then month - 3 else month + 9
  let doy := (153 * mp + 2) / 5 + day - 1
  let doe := yoe * 365 + yoe / 4 - yoe / 100 + doy
  era * 146097 + (doe : Int) - 719468

/-- The getters of a browser whose local time zone is UTC. -/
def utc : LocalTime where
  year t := (civilFromDays (t / 86400000)).1
  month t := (civilFromDays (t / 86400000)).2.1 - 1
  day t := (civilFromDays (t / 86400000)).2.2
  hours t := ((t % 86400000) / 3600000).toNat
  minutes t := ((t % 3600000) / 60000).toNat

/-- Date parsing of `YYYY-MM-DDTHH:mm` strings in a browser whose local time
zone is UTC; any other string is an Invalid Date. -/
def utcParse (s : String) : JsDate :=
  match readFields s with
  | none => none
  | some f =>
    if 1 ≤ f.month ∧ f.month ≤ 12 ∧ 1 ≤ f.day ∧ f.day ≤ 31 ∧ f.hours < 24 ∧ f.minutes < 60 then
      some (daysFromCivil f.year f.month f.day * 86400000 + f.hours * 3600000 + f.minutes * 60000)
    else none

/-! ## Table sorter (`sortTable`) -/

/-- A DOM node inside a `tbody`: a text node, a comment, or an element with
the identity of the node, its tag name and its child nodes in document
order. -/
inductive Node where
  | text (data : String)
  | comment (data : String)
  | element (node : Nat) (tag : String) (children : List Node)
  deriving Repr

/-- Identity of an element node. -/
def Node.id? : Node → Option Nat
  | .element j _ _ => some j
  | _ => none

/-- Whether the node is the element with identity `i`. -/
def Node.hasId (i : Nat) : Node → Bool
  | .element j _ _ => decide (j = i)
  | _ => false

/-- Whether the node is an element with the tag name. -/
def Node.isTag (tag : String) : Node → Bool
  | .element _ t _ => decide (t = tag)
  | _ => false

/-- Child nodes of a node. -/
def Node.children : Node → List Node
  | .element _ _ cs => cs
  | _ => []

/-- Data of a text node. -/
def Node.textData : Node → Option String
  | .text d => some d
  | _ => none

mutual
/-- The node followed by its descendants, in document order. -/
def Node.subtree : Node → List Node
  | .text d => [.text d]
  | .comment d => [.comment d]
  | .element i t cs => .element i t cs :: subtreeList cs
/-- The nodes of a list with their descendants, in document order. -/
def subtreeList : List Node → List Node
  | [] => []
  | n :: rest => n.subtree ++ subtreeList rest
end

/-- `node.textContent`: the data of the text nodes of the subtree, in document
order. -/
def Node.textContent (n : Node) : String :=
  String.join (n.subtree.filterMap Node.textData)

/-- `row.cells`: the `td` and `th` children of a row. -/
def cells (row : Node) : List Node :=
  row.children.filter (fun c => c.isTag "td" || c.isTag "th")

/-- A `tbody` element: its child nodes in document order. -/
structure TBody where
  children : List Node
  deriving Repr

/-- An element carrying an id, with the `tbody` that `querySelector('tbody')`
finds in it (none when it has no `tbody`). -/
structure Table where
  id : String
  tbody : Option TBody
  deriving Repr

/-- The document: its elements with an id, in document order. -/
structure Document where
  elements : List Table
  deriving Repr

/-- `document.getElementById`: the first element with the id. -/
def getElementById (doc : Document) (id : String) : Option Table :=
  doc.elements.find? (fun e => e.id = id)

/-- `tbody.querySelectorAll('tr')`: every `tr` below the body, at any depth,
in document order. -/
def querySelectorAllTr (tbody : TBody) : List Node :=
  (subtreeList tbody.children).filter (fun n => n.isTag "tr")

mutual
/-- The node without the element `i` below it. -/
def Node.removeNode (i : Nat) : Node → Node
  | .text d => .text d
  | .comment d => .comment d
  | .element j t cs => .element j t (removeList i cs)
/-- The nodes of a list without the element `i`, at any depth. -/
def removeList (i : Nat) : List Node → List Node
  | [] => []
  | n :: rest =>
    if n.hasId i then removeList i rest else n.removeNode i :: removeList i rest
end

/-- `tbody.appendChild(row)`: the element referenced by `row` is taken out of
its place, wherever it is below the body, and becomes the last child, with
the children it has at that moment. -/
def appendChild (tbody : TBody) (row : Node) : TBody :=
  match row.id? with
  | none => ⟨tbody.children ++ [row]⟩
  | some i =>
    match (subtreeList tbody.children).find? (fun n => n.hasId i) with
    | none => ⟨tbody.children ++ [row]⟩
    | some current => ⟨removeList i tbody.children ++ [current]⟩

/-- The document after the `tbody` of the first element with the id was
mutated into `tbody`. -/
def setTBodyIn (tableId : String) (tbody : TBody) : List Table → List Table
  | [] => []
  | e :: rest =>
    if e.id = tableId then { e with tbody := some tbody } :: rest
    else e :: setTBodyIn tableId tbody rest

/-- Comparator passed to `rows.sort`: the trimmed cell texts are compared with
`localeCompare`; reading `textContent` of a missing cell throws. -/
def compareRows (localeCompare : String → String → Int) (columnIndex : Nat) (a b : Node) :
    Except JsError Int :=
  match (cells a)[columnIndex]? with
  | none => .error .typeError
  | some aCell =>
    match (cells b)[columnIndex]? with
    | none => .error .typeError
    | some bCell => .ok (localeCompare (jsTrim aCell.textContent) (jsTrim bCell.textContent))

/-- Insertion step of `arraySort`: `a` goes before the first element it does
not compare greater than. -/
def insertSorted {α : Type} (cmp : α → α → Except JsError Int) (a : α) :
    List α → Except JsError (List α)
  | [] => .ok [a]
  | b :: rest =>
    match cmp a b with
    | .error e => .error e
    | .ok v =>
      if v ≤ 0 then .ok (a :: b :: rest)
      else
        match insertSorted cmp a rest with
        | .error e => .error e
        | .ok rest1 => .ok (b :: rest1)

/-- `Array.prototype.sort(comparator)`. ECMAScript requires the sort to be
stable, so for a consistent comparator the result is the same in every engine;
it is computed here by a stable insertion sort. An exception thrown by the
comparator ends the sort; an array with fewer than two elements is returned
without calling the comparator. -/
def arraySort {α : Type} (cmp : α → α → Except JsError Int) : List α → Except JsError (List α)
  | [] => .ok []
  | a :: rest =>
    match arraySort cmp rest with
    | .error e => .error e
    | .ok sorted => insertSorted cmp a sorted

/-- `sortTable(tableId, columnIndex)`; `localeCompare` is the platform's
`String.prototype.localeCompare`. The rows are the nodes as they are when the
array is built; `appendChild` then moves the elements they reference. -/
def sortTable (localeCompare : String → String → Int) (doc : Document) (tableId : String)
    (columnIndex : Nat) : Except JsError Document :=
  match getElementById doc tableId with
  | none => .ok doc
  | some table =>
    match table.tbody with
    | none => .error .typeError
    | some tbody =>
      let rows := querySelectorAllTr tbody
      match arraySort (compareRows localeCompare columnIndex) rows with
      | .error e => .error e
      | .ok sorted => .ok ⟨setTBodyIn tableId (sorted.foldl appendChild tbody) doc.elements⟩

/-- ECMAScript's consistent comparator: the sign of the result splits the
values into equivalence classes that are totally ordered. -/
structure ConsistentComparator (cmp : String → String → Int) : Prop where
  eq_refl : ∀ a, cmp a a = 0
  eq_symm : ∀ a b, cmp a b = 0 → cmp b a = 0
  eq_trans : ∀ a b c, cmp a b = 0 → cmp b c = 0 → cmp a c = 0
  lt_trans : ∀ a b c, cmp a b < 0 → cmp b c < 0 → cmp a c < 0
  gt_trans : ∀ a b c, 0 < cmp a b → 0 < cmp b c → 0 < cmp a c

/-- The sort key of a row: the trimmed text of the cell at `columnIndex`. -/
def sortKey (columnIndex : Nat) (r : Node) : String :=
  jsTrim (((cells r).map Node.textContent).getD columnIndex "")

/-- Row `a` may stand before row `b`: its key does not compare greater. -/
def RowLe (localeCompare : String → String → Int) (columnIndex : Nat) (a b : Node) : Prop :=
  localeCompare (sortKey columnIndex a) (sortKey columnIndex b) ≤ 0

instance (localeCompare : String → String → Int) (columnIndex : Nat) :
    DecidableRel (RowLe localeCompare columnIndex) :=
  fun _ _ => inferInstanceAs (Decidable (_ ≤ _))

/-- Identities of the elements of a subtree, in document order. -/
def nodeIds (n : Node) : List Nat := n.subtree.filterMap Node.id?

/-- Identities of the elements below a list of nodes, in document order. -/
def listIds (cs : List Node) : List Nat := cs.flatMap nodeIds

/-- The elements below the body have distinct identities. -/
def DistinctNodes (tbody : TBody) : Prop := (listIds tbody.children).Nodup

/-- Every `tr` below the body is a child of the body: no row lies inside a
child of the body (no table nested in a cell). -/
def FlatBody (tbody : TBody) : Prop :=
  ∀ c ∈ tbody.children, ∀ d ∈ subtreeList c.children, d.isTag "tr" = false

/-- Lexicographic comparison of character lists by code point. -/
def compareChars : List Char → List Char → Int
  | [], [] => 0
  | [], _ :: _ => -1
  | _ :: _, [] => 1
  | a :: as, b :: bs =>
    if a.toNat < b.toNat then -1
    else if b.toNat < a.toNat then 1
    else compareChars as bs

/-- A concrete comparator: code point order of the strings. -/
def codePointCompare (a b : String) : Int := compareChars a.data b.data

/-- An example body: the cell of the first row holds a nested table with one
row, followed by the text `x`; the second row has the text `b`. -/
def nestedBody : TBody :=
  ⟨[.element 1 "tr" [.element 11 "td" [.element 12 "table" [.element 13 "tbody"
        [.element 3 "tr" [.element 31 "td" [.text "a"]]]], .text "x"]],
    .text " ",
    .element 2 "tr" [.element 21 "td" [.text "b"]]]⟩

/-- The example body after one call of `sortTable` on column 0. -/
def nestedBodyOnce : TBody :=
  ⟨[.text " ",
    .element 3 "tr" [.element 31 "td" [.text "a"]],
    .element 1 "tr" [.element 11 "td" [.element 12 "table" [.element 13 "tbody" []],
      .text "x"]],
    .element 2 "tr" [.element 21 "td" [.text "b"]]]⟩

/-- The example body after two calls of `sortTable` on column 0. -/
def nestedBodyTwice : TBody :=
  ⟨[.text " ",
    .element 3 "tr" [.element 31 "td" [.text "a"]],
    .element 2 "tr" [.element 21 "td" [.text "b"]],
    .element 1 "tr" [.element 11 "td" [.element 12 "table" [.element 13 "tbody" []],
      .text "x"]]]⟩

/-- A flat example body: three rows of two cells with whitespace between. -/
def plainBody : TBody :=
  ⟨[.text " ",
    .element 1 "tr" [.element 11 "td" [.text "x"], .element 12 "td" [.text " b "]],
    .text " ",
    .element 2 "tr" [.element 21 "td" [.text "y"], .element 22 "td" [.text "a"]],
    .comment "c",
    .element 3 "tr" [.element 31 "td" [.text "z"], .element 32 "td" [.text "a "]]]⟩

/-! ## Flash-message auto-dismiss

Timers are an explicit queue with a clock in milliseconds. The page-ready
handler runs at the clock of the page it is given; afterwards the event loop
either lets time pass or runs a timer that is due. A timer runs no earlier
than its due time and at most `slack` milliseconds late. -/

/-- An `.alert` element of `flashMessages`: the indices of the matched elements
that contain it (a matched element can lie inside another one), whether its
own `remove()` has taken it out of its parent, and its inline `transition` and
`opacity` styles. `fadedAt` and `removedAt` record the clock at which the
script set the opacity and called `remove()` on the element. -/
structure Alert where
  ancestors : List Nat
  detached : Bool
  transition : String
  opacity : String
  fadedAt : Option Nat
  removedAt : Option Nat
  deriving DecidableEq, Repr

/-- The two callbacks the script passes to `setTimeout`, for the element at
index `i` of `flashMessages`. -/
inductive Callback where
  | fade (i : Nat)
  | remove (i : Nat)
  deriving DecidableEq, Repr

/-- Index of the element a callback closes over. -/
def Callback.index : Callback → Nat
  | .fade i => i
  | .remove i => i

/-- A pending timer: the clock value from which it may run, and its callback. -/
structure Timer where
  due : Nat
  callback : Callback
  deriving DecidableEq, Repr

/-- The page: the clock, the elements of `flashMessages`, the timer queue. -/
structure FlashPage where
  clock : Nat
  alerts : List Alert
  timers : List Timer
  deriving DecidableEq, Repr

/-- `setTimeout(callback, delay)`. -/
def setTimeout (p : FlashPage) (callback : Callback) (delay : Nat) : FlashPage :=
  { p with timers := p.timers ++ [⟨p.clock + delay, callback⟩] }

/-- Applies `f` to the element at index `i`. -/
def updateAt (f : Alert → Alert) : Nat → List Alert → List Alert
  | _, [] => []
  | 0, a :: rest => f a :: rest
  | i + 1, a :: rest => a :: updateAt f i rest

/-- The page-ready handler: one timer of 5000 ms per matched element. -/
def onReady (p : FlashPage) : FlashPage :=
  (List.range p.alerts.length).foldl (fun q i => setTimeout q (.fade i) 5000) p

/-- Runs a callback: the outer one sets the two styles and starts the timer of
500 ms, the inner one is `message.remove()`, which takes the element out of
its parent. With the element everything inside it leaves the document, so
whether an element is in the document is read off by `inDocument`. -/
def runCallback (p : FlashPage) : Callback → FlashPage
  | .fade i =>
    let faded := fun (a : Alert) =>
      { a with transition := "opacity 0.5s", opacity := "0", fadedAt := some p.clock }
    setTimeout { p with alerts := updateAt faded i p.alerts } (.remove i) 500
  | .remove i =>
    let removed := fun (a : Alert) => { a with detached := true, removedAt := some p.clock }
    { p with alerts := updateAt removed i p.alerts }

/-- Takes the timer at position `k` out of the queue. -/
def takeTimer : Nat → List Timer → Option (Timer × List Timer)
  | _, [] => none
  | 0, t :: rest => some (t, rest)
  | k + 1, t :: rest =>
    match takeTimer k rest with
    | none => none
    | some (x, rest1) => some (x, t :: rest1)

/-- What the event loop does next: let `d` milliseconds pass, or run the timer
at position `k` of the queue. -/
inductive LoopEvent where
  | advance (d : Nat)
  | fire (k : Nat)
  deriving DecidableEq, Repr

/-- One step of the event loop; none when the step is not possible: time does
not pass beyond `due + slack` of a pending timer, and a timer does not run
before it is due. -/
def loopStep (slack : Nat) (p : FlashPage) : LoopEvent → Option FlashPage
  | .advance d =>
    if p.timers.all (fun t => decide (p.clock + d ≤ t.due + slack)) then
      some { p with clock := p.clock + d }
    else none
  | .fire k =>
    match takeTimer k p.timers with
    | none => none
    | some (t, rest) =>
      if t.due ≤ p.clock then some (runCallback { p with timers := rest } t.callback)
      else none

/-- A run of the event loop. -/
def run (slack : Nat) : FlashPage → List LoopEvent → Option FlashPage
  | p, [] => some p
  | p, e :: es =>
    match loopStep slack p e with
    | none => none
    | some q => run slack q es

/-- The page at page ready (clock 0): the matched elements, each given by the
indices of the matched elements around it and its initial inline styles
`(transition, opacity)`, all in the document, no timer. -/
def initialPage (elements : List (List Nat × String × String)) : FlashPage :=
  { clock := 0,
    alerts := elements.map (fun s => ⟨s.1, false, s.2.1, s.2.2, none, none⟩),
    timers := [] }

/-- Whether an element is in the document: neither the element nor a matched
element around it has been removed. -/
def inDocument (p : FlashPage) (a : Alert) : Bool :=
  !a.detached && a.ancestors.all (fun j =>
    match p.alerts[j]? with
    | some b => !b.detached
    | none => true)

/-- Display state of a flash message. -/
inductive Phase where
  | visible
  | fading
  | removed
  deriving DecidableEq, Repr

/-- Position of a display state in the order visible, fading, removed. -/
def Phase.rank : Phase → Nat
  | .visible => 0
  | .fading => 1
  | .removed => 2

/-- Display state of an element: removed once it left the document, fading
once the script set its opacity, visible before. -/
def phase (p : FlashPage) (a : Alert) : Phase :=
  if inDocument p a = false then .removed
  else if a.fadedAt.isSome then .fading
  else .visible

/-- State `b` of an element is the same as or later than state `a`. -/
def AlertLe (a b : Alert) : Prop :=
  b.ancestors = a.ancestors ∧ (a.detached = true → b.detached = true) ∧
  (a.fadedAt.isSome = true → b.fadedAt.isSome = true)

/-- Consistency of the element at index `i` with the clock and the queue. -/
def AlertOk (slack : Nat) (p : FlashPage) (i : Nat) (a : Alert) : Prop :=
  match a.fadedAt, a.removedAt with
  | none, none =>
    a.detached = false ∧ ⟨5000, .fade i⟩ ∈ p.timers ∧ p.clock ≤ 5000 + slack
  | some tf, none =>
    a.detached = false ∧ a.opacity = "0" ∧ a.transition = "opacity 0.5s" ∧
    5000 ≤ tf ∧ tf ≤ 5000 + slack ∧ tf ≤ p.clock ∧
    ⟨tf + 500, .remove i⟩ ∈ p.timers ∧ p.clock ≤ tf + 500 + slack
  | some tf, some tr =>
    a.detached = true ∧ a.opacity = "0" ∧ a.transition = "opacity 0.5s" ∧
    5000 ≤ tf ∧ tf ≤ 5000 + slack ∧ tf + 500 ≤ tr ∧ tr ≤ tf + 500 + slack ∧ tr ≤ p.clock
  | none, some _ => False

/-- Consistency of a pending timer with the element it closes over. -/
def TimerOk (p : FlashPage) (t : Timer) : Prop :=
  match t.callback with
  | .fade i =>
    t.due = 5000 ∧ ∃ a, p.alerts[i]? = some a ∧ a.fadedAt = none ∧ a.removedAt = none
  | .remove i =>
    ∃ a tf, p.alerts[i]? = some a ∧ a.fadedAt = some tf ∧ a.removedAt = none ∧
      t.due = tf + 500

/-- Invariant of the runs that start at page ready. -/
structure FlashInv (slack : Nat) (p : FlashPage) : Prop where
  nodup : (p.timers.map (fun t => t.callback.index)).Nodup
  timers : ∀ t ∈ p.timers, TimerOk p t
  alerts : ∀ i a, p.alerts[i]? = some a → AlertOk slack p i a

/-! ## Lemmas on trimming -/

theorem trimEndChars_eq_nil_iff (l : List Char) :
    trimEndChars l = [] ↔ ∀ c ∈ l, isTrimChar c = true := by
  unfold trimEndChars
  rw [List.reverse_eq_nil_iff, List.dropWhile_eq_nil_iff]
  simp

theorem trimStart_all_iff (l : List Char) :
    (∀ c ∈ trimStartChars l, isTrimChar c = true) ↔ ∀ c ∈ l, isTrimChar c = true := by
  unfold trimStartChars
  induction l with
  | nil => simp
  | cons a t ih =>
    by_cases h : isTrimChar a = true
    · simp [List.dropWhile_cons, h, ih]
    · simp [List.dropWhile_cons, h]

/-- The trimmed string is empty exactly when every character is whitespace. -/
theorem jsTrim_eq_empty_iff (s : String) :
    jsTrim s = "" ↔ ∀ c ∈ s.data, isTrimChar c = true := by
  unfold jsTrim
  rw [← trimStart_all_iff, ← trimEndChars_eq_nil_iff]
  constructor
  · intro h
    have := congrArg String.data h
    simpa using this
  · intro h
    rw [h]

theorem truthy_eq_false_iff (s : String) : truthy s = false ↔ s = "" := by
  unfold truthy
  constructor
  · intro h
    have h1 : s.data = [] := by simpa [List.isEmpty_iff] using h
    cases s
    simp_all
  · intro h
    subst h
    rfl

/-! ## Properties of the required-field validator -/

theorem foldl_checkInput_fst (l : List RequiredInput) (acc : Bool × List RequiredInput) :
    (l.foldl checkInput acc).1 = (acc.1 && l.all (fun i => truthy (jsTrim i.value))) := by
  induction l generalizing acc with
  | nil => simp
  | cons a t ih =>
    rw [List.foldl_cons, ih]
    unfold checkInput
    cases h : truthy (jsTrim a.value) <;> simp [h]

theorem submitHandler_valid_iff (form : Form) :
    (form.inputs.foldl checkInput (true, [])).1 = true ↔
      ∀ i ∈ form.inputs, jsTrim i.value ≠ "" := by
  rw [foldl_checkInput_fst]
  simp only [Bool.true_and, List.all_eq_true]
  constructor
  · intro h i hi he
    have := h i hi
    rw [he] at this
    exact absurd this (by decide)
  · intro h i hi
    cases ht : truthy (jsTrim i.value)
    · exact absurd ((truthy_eq_false_iff _).1 ht) (h i hi)
    · rfl

/-- C1: the submit listener installed by `validateForm` prevents the
submission and shows the alert exactly when some required input has an empty
trimmed value (a value made of whitespace only counts as empty); when every
required input has a non-empty trimmed value the submission is not prevented
and no alert is shown. -/
theorem validateForm_prevents_iff_empty_required
    (getElementById : String → Option Form) (formId : String)
    (handler : Form → SubmitOutcome)
    (hinstalled : validateForm getElementById formId = some handler) (form : Form) :
    (((handler form).defaultPrevented = true ∧ (handler form).alerts = [requiredMessage]) ↔
        ∃ i ∈ form.inputs, jsTrim i.value = "") ∧
    (((handler form).defaultPrevented = false ∧ (handler form).alerts = []) ↔
        ∀ i ∈ form.inputs, jsTrim i.value ≠ "") ∧
    (∀ i ∈ form.inputs, jsTrim i.value = "" ↔ ∀ c ∈ i.value.data, isTrimChar c = true) := by
  have hh : handler = submitHandler := by
    unfold validateForm at hinstalled
    cases hg : getElementById formId with
    | none => rw [hg] at hinstalled; exact absurd hinstalled (by simp)
    | some f => rw [hg] at hinstalled; exact (Option.some.inj hinstalled).symm
  subst hh
  have hv := submitHandler_valid_iff form
  refine ⟨?_, ?_, fun i _ => jsTrim_eq_empty_iff i.value⟩
  · unfold submitHandler
    cases hf : (form.inputs.foldl checkInput (true, [])).1
    · have hne : ¬ ∀ i ∈ form.inputs, jsTrim i.value ≠ "" := by
        intro hall
        rw [hv.2 hall] at hf
        exact absurd hf (by decide)
      push_neg at hne
      simp only [hf]
      simpa using hne
    · have hall := hv.1 hf
      simp only [hf]
      constructor
      · intro h
        exact absurd h.1 (by simp)
      · rintro ⟨i, hi, he⟩
        exact absurd he (hall i hi)
  · unfold submitHandler
    cases hf : (form.inputs.foldl checkInput (true, [])).1
    · have hne : ¬ ∀ i ∈ form.inputs, jsTrim i.value ≠ "" := by
        intro hall
        rw [hv.2 hall] at hf
        exact absurd hf (by decide)
      simp only [hf]
      constructor
      · intro h
        exact absurd h.1 (by simp)
      · intro h
        exact absurd h hne
    · have hall := hv.1 hf
      simp only [hf]
      simpa using hall

/-- Witness for C1: a form with one filled and one whitespace-only input. -/
theorem validateForm_prevents_iff_empty_required_witness :
    validateForm (fun _ => some ⟨[]⟩) "f" = some submitHandler ∧
    ((((submitHandler ⟨[⟨"ab", ""⟩, ⟨" \t", ""⟩]⟩).defaultPrevented = true ∧
        (submitHandler ⟨[⟨"ab", ""⟩, ⟨" \t", ""⟩]⟩).alerts = [requiredMessage]) ↔
        ∃ i ∈ (⟨[⟨"ab", ""⟩, ⟨" \t", ""⟩]⟩ : Form).inputs, jsTrim i.value = "") ∧
    (((submitHandler ⟨[⟨"ab", ""⟩, ⟨" \t", ""⟩]⟩).defaultPrevented = false ∧
        (submitHandler ⟨[⟨"ab", ""⟩, ⟨" \t", ""⟩]⟩).alerts = []) ↔
        ∀ i ∈ (⟨[⟨"ab", ""⟩, ⟨" \t", ""⟩]⟩ : Form).inputs, jsTrim i.value ≠ "") ∧
    (∀ i ∈ (⟨[⟨"ab", ""⟩, ⟨" \t", ""⟩]⟩ : Form).inputs,
        jsTrim i.value = "" ↔ ∀ c ∈ i.value.data, isTrimChar c = true)) :=
  ⟨rfl, validateForm_prevents_iff_empty_required (fun _ => some ⟨[]⟩) "f" submitHandler rfl
    ⟨[⟨"ab", ""⟩, ⟨" \t", ""⟩]⟩⟩

/-! ## Properties of the password confirmation matcher -/

theorem mismatchMessage_ne_empty : mismatchMessage ≠ "" := by decide

theorem confirmInputListener_eq_empty_iff (pw c : String) :
    confirmInputListener pw c = "" ↔ c = pw := by
  unfold confirmInputListener
  by_cases h : pw = c
  · simp [h]
  · have h2 : ¬ c = pw := fun e => h e.symm
    simp [h, h2, mismatchMessage_ne_empty]

/-- C7: after an input event on the confirm field (both fields present) the
custom validity message is the fixed non-empty mismatch message exactly when
the confirm value differs from the current password value, and is empty
exactly when the two are equal; the previous message has no influence. -/
theorem confirm_input_validity_iff (pw c0 c prev : String) :
    ((passwordStep ⟨some pw, some c0, prev⟩ (.inputConfirm c)).customValidity ≠ "" ↔ c ≠ pw) ∧
    ((passwordStep ⟨some pw, some c0, prev⟩ (.inputConfirm c)).customValidity = mismatchMessage ↔
      c ≠ pw) ∧
    ((passwordStep ⟨some pw, some c0, prev⟩ (.inputConfirm c)).customValidity = "" ↔ c = pw) ∧
    (passwordStep ⟨some pw, some c0, prev⟩ (.inputConfirm c)).confirm = some c ∧
    (passwordStep ⟨some pw, some c0, prev⟩ (.inputConfirm c)).password = some pw ∧
    (∀ other : String,
      (passwordStep ⟨some pw, some c0, other⟩ (.inputConfirm c)).customValidity =
      (passwordStep ⟨some pw, some c0, prev⟩ (.inputConfirm c)).customValidity) := by
  refine ⟨?_, ?_, ?_, rfl, rfl, fun _ => rfl⟩
  · simp only [passwordStep]
    exact not_congr (confirmInputListener_eq_empty_iff pw c)
  · simp only [passwordStep]
    unfold confirmInputListener
    by_cases h : pw = c
    · simp [h, mismatchMessage_ne_empty.symm]
    · have h2 : ¬ c = pw := fun e => h e.symm
      simp [h, h2]
  · simp only [passwordStep]
    exact confirmInputListener_eq_empty_iff pw c

/-- C10: an edit of the password field never changes the custom validity
message of the confirm field. After the fields matched (message empty) and the
password is edited, the message is still empty; the next input event on the
confirm field recomputes it from the two current values, so it is non-empty
exactly when they differ, in particular when the confirm field still holds the
old password and the new password differs from it. -/
theorem password_edit_keeps_validity (p : PasswordPage) (v pw c0 prev pw2 c2 : String) :
    (passwordStep p (.inputPassword v)).customValidity = p.customValidity ∧
    (passwordStep p (.inputPassword v)).confirm = p.confirm ∧
    (passwordStep ⟨some pw, some c0, prev⟩ (.inputConfirm pw)).customValidity = "" ∧
    (passwordStep (passwordStep ⟨some pw, some c0, prev⟩ (.inputConfirm pw))
      (.inputPassword pw2)).customValidity = "" ∧
    ((passwordStep (passwordStep (passwordStep ⟨some pw, some c0, prev⟩ (.inputConfirm pw))
      (.inputPassword pw2)) (.inputConfirm c2)).customValidity ≠ "" ↔ c2 ≠ pw2) ∧
    ((passwordStep (passwordStep (passwordStep ⟨some pw, some c0, prev⟩ (.inputConfirm pw))
      (.inputPassword pw2)) (.inputConfirm pw)).customValidity = mismatchMessage ↔ pw2 ≠ pw) := by
  refine ⟨?_, ?_, ?_, ?_, ?_, ?_⟩
  · cases p with
    | mk password confirm cv => cases password <;> rfl
  · cases p with
    | mk password confirm cv => cases password <;> rfl
  · simp [passwordStep, confirmInputListener]
  · simp [passwordStep, confirmInputListener]
  · simp only [passwordStep]
    exact not_congr (confirmInputListener_eq_empty_iff pw2 c2)
  · simp only [passwordStep]
    unfold confirmInputListener
    by_cases h : pw2 = pw
    · simp [h, mismatchMessage_ne_empty.symm]
    · simp [h]

/-! ## Properties of the date-time defaults and the ordering guard -/

theorem truthy_eq_true_iff (s : String) : truthy s = true ↔ s ≠ "" := by
  have h := truthy_eq_false_iff s
  cases ht : truthy s <;> simp_all

theorem repr_four_digits (y : Nat) (h1 : 1000 ≤ y) (h2 : y ≤ 9999) :
    (Nat.repr y).data =
      [Nat.digitChar (y / 1000), Nat.digitChar (y / 100 % 10), Nat.digitChar (y / 10 % 10),
        Nat.digitChar (y % 10)] := by
  obtain ⟨k, hk⟩ : ∃ k, y + 1 = k + 4 := ⟨y - 3, by omega⟩
  unfold Nat.repr Nat.toDigits
  rw [hk]
  have a1 : ¬ y / 10 = 0 := by omega
  have a2 : ¬ y / 10 / 10 = 0 := by omega
  have a3 : ¬ y / 10 / 10 / 10 = 0 := by omega
  have a4 : y / 10 / 10 / 10 / 10 = 0 := by omega
  have b1 : y / 10 / 10 = y / 100 := by omega
  have b2 : y / 10 / 10 / 10 = y / 1000 := by omega
  have b3 : y / 1000 % 10 = y / 1000 := by omega
  simp only [Nat.toDigitsCore, a1, a2, a3, a4, if_true, if_false, List.asString]
  rw [b2, b1, b3]

set_option maxRecDepth 100000 in
theorem padStart_two_digits :
    ∀ n < 100, (padStart (numberToString (some (Int.ofNat n))) 2 "0").data =
      [Nat.digitChar (n / 10), Nat.digitChar (n % 10)] := by
  decide

theorem digitValue_digitChar : ∀ d < 10, digitValue (Nat.digitChar d) = some d := by
  decide

theorem readNat_two (a b : Nat) (ha : a < 10) (hb : b < 10) :
    readNat [Nat.digitChar a, Nat.digitChar b] = some (a * 10 + b) := by
  simp [readNat, digitValue_digitChar a ha, digitValue_digitChar b hb]

theorem readNat_four (a b c d : Nat) (ha : a < 10) (hb : b < 10) (hc : c < 10) (hd : d < 10) :
    readNat [Nat.digitChar a, Nat.digitChar b, Nat.digitChar c, Nat.digitChar d] =
      some (((a * 10 + b) * 10 + c) * 10 + d) := by
  simp [readNat, digitValue_digitChar a ha, digitValue_digitChar b hb,
    digitValue_digitChar c hc, digitValue_digitChar d hd]

/-- The characters of a formatted valid date with a four-digit year. -/
theorem formatDateTime_data (lt : LocalTime) (t : Int) (hr : lt.InRange t)
    (hy1 : 1000 ≤ lt.year t) (hy2 : lt.year t ≤ 9999) :
    (formatDateTime lt (some t)).data =
      [Nat.digitChar ((lt.year t).toNat / 1000), Nat.digitChar ((lt.year t).toNat / 100 % 10),
        Nat.digitChar ((lt.year t).toNat / 10 % 10), Nat.digitChar ((lt.year t).toNat % 10),
        '-', Nat.digitChar ((lt.month t + 1) / 10), Nat.digitChar ((lt.month t + 1) % 10),
        '-', Nat.digitChar (lt.day t / 10), Nat.digitChar (lt.day t % 10),
        'T', Nat.digitChar (lt.hours t / 10), Nat.digitChar (lt.hours t % 10),
        ':', Nat.digitChar (lt.minutes t / 10), Nat.digitChar (lt.minutes t % 10)] := by
  obtain ⟨hm, _, hd, hh, hn⟩ := hr
  obtain ⟨y, hy⟩ : ∃ y : Nat, lt.year t = Int.ofNat y := ⟨(lt.year t).toNat, by
    simp only [Int.ofNat_eq_coe]; omega⟩
  have hy1n : 1000 ≤ y := by rw [hy] at hy1; simp only [Int.ofNat_eq_coe] at hy1; omega
  have hy2n : y ≤ 9999 := by rw [hy] at hy2; simp only [Int.ofNat_eq_coe] at hy2; omega
  have hyear : (numberToString (getFullYear lt (some t))).data = (Nat.repr y).data := by
    simp only [getFullYear, Option.map_some', hy, numberToString]
  have hmonth : numAdd (getMonth lt (some t)) (some 1) = some (Int.ofNat (lt.month t + 1)) := by
    simp [getMonth, numAdd]
  have hday : getDate lt (some t) = some (Int.ofNat (lt.day t)) := by simp [getDate]
  have hhours : getHours lt (some t) = some (Int.ofNat (lt.hours t)) := by simp [getHours]
  have hmin : getMinutes lt (some t) = some (Int.ofNat (lt.minutes t)) := by simp [getMinutes]
  have hty : (lt.year t).toNat = y := by rw [hy]; rfl
  unfold formatDateTime
  simp only [String.data_append, hyear, hmonth, hday, hhours, hmin,
    repr_four_digits y hy1n hy2n,
    padStart_two_digits (lt.month t + 1) (by omega), padStart_two_digits (lt.day t) (by omega),
    padStart_two_digits (lt.hours t) (by omega), padStart_two_digits (lt.minutes t) (by omega),
    hty]
  rfl

/-- C6 (amended): for every valid date whose local year has four digits
(1000..9999), `formatDateTime` returns the zero-padded `YYYY-MM-DDTHH:mm`
string: exactly 16 characters, the year, `-`, the month plus one as two digits
in 01..12, `-`, the day as two digits, `T`, the hour as two digits, `:`, the
minute as two digits; reading the five fields back recovers them. -/
theorem formatDateTime_four_digit_year (lt : LocalTime) (t : Int) (hr : lt.InRange t)
    (hy1 : 1000 ≤ lt.year t) (hy2 : lt.year t ≤ 9999) :
    (formatDateTime lt (some t)).length = 16 ∧
    (formatDateTime lt (some t)).data =
      [Nat.digitChar ((lt.year t).toNat / 1000), Nat.digitChar ((lt.year t).toNat / 100 % 10),
        Nat.digitChar ((lt.year t).toNat / 10 % 10), Nat.digitChar ((lt.year t).toNat % 10),
        '-', Nat.digitChar ((lt.month t + 1) / 10), Nat.digitChar ((lt.month t + 1) % 10),
        '-', Nat.digitChar (lt.day t / 10), Nat.digitChar (lt.day t % 10),
        'T', Nat.digitChar (lt.hours t / 10), Nat.digitChar (lt.hours t % 10),
        ':', Nat.digitChar (lt.minutes t / 10), Nat.digitChar (lt.minutes t % 10)] ∧
    readFields (formatDateTime lt (some t)) =
      some ⟨(lt.year t).toNat, lt.month t + 1, lt.day t, lt.hours t, lt.minutes t⟩ ∧
    ((lt.year t).toNat : Int) = lt.year t ∧
    1 ≤ lt.month t + 1 ∧ lt.month t + 1 ≤ 12 := by
  have hdata := formatDateTime_data lt t hr hy1 hy2
  obtain ⟨hm, _, hd, hh, hn⟩ := hr
  refine ⟨?_, hdata, ?_, by omega, by omega, by omega⟩
  · rw [String.length, hdata]
    rfl
  · unfold readFields
    rw [hdata]
    simp only [and_self, if_true]
    rw [readNat_four _ _ _ _ (by omega) (by omega) (by omega) (by omega),
      readNat_two _ _ (by omega) (by omega), readNat_two _ _ (by omega) (by omega),
      readNat_two _ _ (by omega) (by omega), readNat_two _ _ (by omega) (by omega)]
    simp only [Option.some.injEq, MinuteFields.mk.injEq]
    refine ⟨?_, ?_, ?_, ?_, ?_⟩ <;> omega

/-- Witness for C6: 2024-01-01 10:00 in a browser whose zone is UTC. -/
theorem formatDateTime_four_digit_year_witness :
    utc.InRange 1704103200000 ∧ utc.year 1704103200000 = 2024 ∧
    (formatDateTime utc (some 1704103200000)).length = 16 ∧
    readFields (formatDateTime utc (some 1704103200000)) =
      some ⟨(utc.year 1704103200000).toNat, utc.month 1704103200000 + 1,
        utc.day 1704103200000, utc.hours 1704103200000, utc.minutes 1704103200000⟩ ∧
    formatDateTime utc (some 1704103200000) = "2024-01-01T10:00" :=
  have hr : utc.InRange 1704103200000 := by unfold LocalTime.InRange; decide
  have h := formatDateTime_four_digit_year utc 1704103200000 hr (by decide) (by decide)
  ⟨hr, by decide, h.1, h.2.2.1, by decide⟩

/-- C6 as stated fails: the year is not padded, so a date in the year 999 gives
15 characters and a date in the year 10000 gives 17; a date in the year -999
gives 16 characters that begin with the sign, not with four digits, and the
fields cannot be read back; an Invalid Date gives the text
`NaN-NaN-NaNTNaN:NaN`. -/
theorem formatDateTime_not_always_sixteen :
    utc.InRange (-30641760000000) ∧ utc.year (-30641760000000) = 999 ∧
    formatDateTime utc (some (-30641760000000)) = "999-01-01T00:00" ∧
    (formatDateTime utc (some (-30641760000000))).length = 15 ∧
    readFields (formatDateTime utc (some (-30641760000000))) = none ∧
    formatDateTime utc (some 253402300800000) = "10000-01-01T00:00" ∧
    utc.InRange (-93692592000000) ∧ utc.year (-93692592000000) = -999 ∧
    formatDateTime utc (some (-93692592000000)) = "-999-01-01T00:00" ∧
    readFields (formatDateTime utc (some (-93692592000000))) = none ∧
    formatDateTime utc none = "NaN-NaN-NaNTNaN:NaN" := by
  refine ⟨?_, ?_, ?_, ?_, ?_, ?_, ?_, ?_, ?_, ?_, ?_⟩
  · unfold LocalTime.InRange; decide
  · decide
  · decide
  · decide
  · decide
  · decide
  · unfold LocalTime.InRange; decide
  all_goals decide

/-- C5: with both fields present, page ready sets an empty start field to the
formatted current time and an empty end field to the formatted time 7,200,000
ms later, each decision taken on its own field only, and leaves a filled field
untouched; with either field absent the page is unchanged. The current time
plus two hours is assumed to be a time value of the Date range. -/
theorem initTimeDefaults_fills_empty_fields (lt : LocalTime) (nowMs : Int)
    (startValue endValue : String) (attached : Bool) (log : List String)
    (hlo : -maxTimeValue ≤ nowMs) (hhi : nowMs + 7200000 ≤ maxTimeValue) :
    (initTimeDefaults lt nowMs ⟨some startValue, some endValue, attached, log⟩).startTime =
      some (if startValue = "" then formatDateTime lt (some nowMs) else startValue) ∧
    (initTimeDefaults lt nowMs ⟨some startValue, some endValue, attached, log⟩).endTime =
      some (if endValue = "" then formatDateTime lt (some (nowMs + 7200000)) else endValue) ∧
    (initTimeDefaults lt nowMs ⟨some startValue, some endValue, attached, log⟩).alerts = log ∧
    (∀ (e : Option String) (l : Bool) (a : List String),
      initTimeDefaults lt nowMs ⟨none, e, l, a⟩ = ⟨none, e, l, a⟩) ∧
    (∀ (s : Option String) (l : Bool) (a : List String),
      initTimeDefaults lt nowMs ⟨s, none, l, a⟩ = ⟨s, none, l, a⟩) := by
  have hlater : newDate (numAdd (getTime (some nowMs)) (some (2 * 60 * 60 * 1000))) =
      some (nowMs + 7200000) := by
    have h1 : -maxTimeValue ≤ nowMs + 7200000 := by omega
    have h2 : nowMs + 2 * 60 * 60 * 1000 = nowMs + 7200000 := by norm_num
    simp only [getTime, numAdd, newDate]
    rw [h2, if_pos ⟨h1, hhi⟩]
  refine ⟨?_, ?_, rfl, ?_, ?_⟩
  · simp only [initTimeDefaults]
    by_cases h : startValue = ""
    · simp [h, (truthy_eq_false_iff "").2 rfl]
    · simp [h, (truthy_eq_true_iff startValue).2 h]
  · simp only [initTimeDefaults, hlater]
    by_cases h : endValue = ""
    · simp [h, (truthy_eq_false_iff "").2 rfl]
    · simp [h, (truthy_eq_true_iff endValue).2 h]
  · intro e l a
    rfl
  · intro s l a
    cases s <;> rfl

/-- Witness for C5: page ready at 2024-01-01 10:00 UTC with a filled start
field and an empty end field. -/
theorem initTimeDefaults_fills_empty_fields_witness :
    (initTimeDefaults utc 1704103200000 ⟨some "2023-12-31T08:00", some "", false, []⟩).startTime =
      some "2023-12-31T08:00" ∧
    (initTimeDefaults utc 1704103200000 ⟨some "2023-12-31T08:00", some "", false, []⟩).endTime =
      some "2024-01-01T12:00" :=
  have h := initTimeDefaults_fills_empty_fields utc 1704103200000 "2023-12-31T08:00" "" false []
    (by decide) (by decide)
  ⟨h.1.trans (by decide), h.2.1.trans (by decide)⟩

/-- C4: with non-empty start and end values that both parse, the change
listener of the end field shows the alert and clears the end field exactly
when the parsed end is less than or equal to the parsed start, leaves the end
field and the alerts as they are exactly when the parsed end is strictly
greater, and never modifies the start field. -/
theorem endChangeListener_order_guard (dateParse : String → JsDate)
    (startValue endValue previous : String) (log : List String) (ts te : Int)
    (hs : startValue ≠ "") (he : endValue ≠ "")
    (hps : dateParse startValue = some ts) (hpe : dateParse endValue = some te) :
    (((endChangeListener dateParse ⟨some startValue, some endValue, true, log⟩).endTime = some "" ∧
      (endChangeListener dateParse ⟨some startValue, some endValue, true, log⟩).alerts =
        log ++ [orderMessage]) ↔ te ≤ ts) ∧
    (((endChangeListener dateParse ⟨some startValue, some endValue, true, log⟩).endTime =
        some endValue ∧
      (endChangeListener dateParse ⟨some startValue, some endValue, true, log⟩).alerts = log) ↔
        ts < te) ∧
    (endChangeListener dateParse ⟨some startValue, some endValue, true, log⟩).startTime =
      some startValue ∧
    (∀ q : TimePage, (endChangeListener dateParse q).startTime = q.startTime) ∧
    changeEnd dateParse ⟨some startValue, some previous, true, log⟩ endValue =
      endChangeListener dateParse ⟨some startValue, some endValue, true, log⟩ := by
  have hts := (truthy_eq_true_iff startValue).2 hs
  have hte := (truthy_eq_true_iff endValue).2 he
  have he2 : ¬ ("" = endValue) := fun h => he h.symm
  have hstart : ∀ q : TimePage, (endChangeListener dateParse q).startTime = q.startTime := by
    intro q
    unfold endChangeListener
    split
    · split_ifs <;> rfl
    · rfl
  refine ⟨?_, ?_, ?_, hstart, ?_⟩
  all_goals
    by_cases hle : te ≤ ts
    · have hnot : ¬ ts < te := by omega
      simp [endChangeListener, hts, hte, hps, hpe, dateLe, hle, hnot, he2, changeEnd]
    · have hlt : ts < te := by omega
      simp [endChangeListener, hts, hte, hps, hpe, dateLe, hle, hlt, he, changeEnd]

/-- Witness for C4: start 10:00, end changed to 09:00 on the same day. -/
theorem endChangeListener_order_guard_witness :
    (endChangeListener utcParse
      ⟨some "2024-01-01T10:00", some "2024-01-01T09:00", true, []⟩).endTime = some "" ∧
    (endChangeListener utcParse
      ⟨some "2024-01-01T10:00", some "2024-01-01T09:00", true, []⟩).alerts = [orderMessage] :=
  (endChangeListener_order_guard utcParse "2024-01-01T10:00" "2024-01-01T09:00" "" []
    1704103200000 1704099600000 (by decide) (by decide) (by decide) (by decide)).1.2 (by decide)

/-! ## Properties of the table sorter -/

theorem subtreeList_append (s t : List Node) :
    subtreeList (s ++ t) = subtreeList s ++ subtreeList t := by
  induction s with
  | nil => simp [subtreeList]
  | cons a rest ih => simp [subtreeList, ih]

theorem filterMap_id_subtreeList (cs : List Node) :
    (subtreeList cs).filterMap Node.id? = listIds cs := by
  induction cs with
  | nil => simp [subtreeList, listIds]
  | cons a rest ih =>
    simp only [subtreeList, List.filterMap_append, ih, listIds, List.flatMap_cons, nodeIds]

theorem nodeIds_element (j : Nat) (t : String) (cs : List Node) :
    nodeIds (.element j t cs) = j :: listIds cs := by
  simp only [nodeIds, Node.subtree, List.filterMap_cons, Node.id?, filterMap_id_subtreeList]

theorem listIds_cons (n : Node) (cs : List Node) : listIds (n :: cs) = nodeIds n ++ listIds cs := by
  simp [listIds]

theorem listIds_append (s t : List Node) : listIds (s ++ t) = listIds s ++ listIds t := by
  simp [listIds]

theorem hasId_iff (n : Node) (i : Nat) : n.hasId i = true ↔ n.id? = some i := by
  cases n <;> simp [Node.hasId, Node.id?]

theorem mem_nodeIds_of_id (n : Node) (i : Nat) (h : n.id? = some i) : i ∈ nodeIds n := by
  cases n with
  | text d => simp [Node.id?] at h
  | comment d => simp [Node.id?] at h
  | element j t cs =>
    simp only [Node.id?, Option.some.injEq] at h
    rw [nodeIds_element, h]
    exact List.mem_cons_self _ _

theorem mem_subtree_self (n : Node) : n ∈ n.subtree := by
  cases n <;> simp [Node.subtree]

theorem mem_subtreeList_of_mem (cs : List Node) (n : Node) (h : n ∈ cs) : n ∈ subtreeList cs := by
  induction cs with
  | nil => cases h
  | cons a rest ih =>
    simp only [subtreeList, List.mem_append]
    rcases List.mem_cons.1 h with rfl | h1
    · exact Or.inl (mem_subtree_self _)
    · exact Or.inr (ih h1)

mutual
theorem removeNode_of_not_mem (i : Nat) : ∀ n : Node, i ∉ nodeIds n → n.removeNode i = n
  | .text d, _ => by simp [Node.removeNode]
  | .comment d, _ => by simp [Node.removeNode]
  | .element j t cs, h => by
    rw [nodeIds_element] at h
    have h2 : i ∉ listIds cs := fun hm => h (List.mem_cons_of_mem _ hm)
    simp only [Node.removeNode]
    rw [removeList_of_not_mem i cs h2]
theorem removeList_of_not_mem (i : Nat) : ∀ cs : List Node, i ∉ listIds cs → removeList i cs = cs
  | [], _ => by simp [removeList]
  | n :: rest, h => by
    rw [listIds_cons, List.mem_append, not_or] at h
    have h3 : n.hasId i = false := by
      cases hh : n.hasId i with
      | false => rfl
      | true => exact absurd (mem_nodeIds_of_id n i ((hasId_iff n i).1 hh)) h.1
    simp only [removeList, h3]
    rw [removeNode_of_not_mem i n h.1, removeList_of_not_mem i rest h.2]
    simp
end

theorem removeList_append (i : Nat) (s t : List Node) :
    removeList i (s ++ t) = removeList i s ++ removeList i t := by
  induction s with
  | nil => simp [removeList]
  | cons a rest ih =>
    simp only [List.cons_append, removeList]
    split_ifs <;> simp [ih]

theorem find_hasId_none (i : Nat) (s : List Node) (h : i ∉ listIds s) :
    (subtreeList s).find? (fun n => n.hasId i) = none := by
  rw [List.find?_eq_none]
  intro x hx hid
  apply h
  rw [← filterMap_id_subtreeList, List.mem_filterMap]
  exact ⟨x, hx, (hasId_iff x i).1 hid⟩

/-- Moving a child of the body: it leaves its place and becomes the last
child. -/
theorem appendChild_split (s t : List Node) (i : Nat) (tag : String) (sub : List Node)
    (row : Node) (hrow : row.id? = some i) (hs : i ∉ listIds s) (ht : i ∉ listIds t) :
    appendChild ⟨s ++ .element i tag sub :: t⟩ row = ⟨s ++ t ++ [.element i tag sub]⟩ := by
  have hfind : (subtreeList (s ++ .element i tag sub :: t)).find? (fun n => n.hasId i) =
      some (.element i tag sub) := by
    rw [subtreeList_append, List.find?_append, find_hasId_none i s hs]
    simp [subtreeList, Node.subtree, Node.hasId]
  have hrem : removeList i (s ++ .element i tag sub :: t) = s ++ t := by
    rw [removeList_append, removeList_of_not_mem i s hs]
    simp only [removeList, Node.hasId, decide_True, if_true]
    rw [removeList_of_not_mem i t ht]
  unfold appendChild
  simp only [hrow, hfind, hrem]

theorem filter_hasId_of_not_mem (i : Nat) (s : List Node) (h : i ∉ listIds s) :
    s.filter (fun c => !c.hasId i) = s := by
  rw [List.filter_eq_self]
  intro x hx
  cases hh : x.hasId i with
  | false => rfl
  | true =>
    exfalso
    apply h
    simp only [listIds, List.mem_flatMap]
    exact ⟨x, hx, mem_nodeIds_of_id x i ((hasId_iff x i).1 hh)⟩

/-- With distinct identities, moving a child of the body takes exactly that
child out and puts it last; the children are permuted. -/
theorem appendChild_child (cs : List Node) (r : Node) (i : Nat)
    (hnd : (listIds cs).Nodup) (hr : r ∈ cs) (hid : r.id? = some i) :
    appendChild ⟨cs⟩ r = ⟨cs.filter (fun c => !c.hasId i) ++ [r]⟩ ∧
    (cs.filter (fun c => !c.hasId i) ++ [r]).Perm cs := by
  obtain ⟨s, t, rfl⟩ := List.append_of_mem hr
  cases r with
  | text d => simp [Node.id?] at hid
  | comment d => simp [Node.id?] at hid
  | element j tag sub =>
    simp only [Node.id?, Option.some.injEq] at hid
    subst hid
    rw [listIds_append, listIds_cons, nodeIds_element] at hnd
    have hs : j ∉ listIds s := by
      intro hm
      exact (List.nodup_append.1 hnd).2.2 hm (List.mem_append_left _ (List.mem_cons_self _ _))
    have ht : j ∉ listIds t := by
      intro hm
      have h2 := (List.nodup_append.1 hnd).2.1
      rw [List.cons_append, List.nodup_cons] at h2
      exact h2.1 (List.mem_append_right _ hm)
    have hfilter : (s ++ Node.element j tag sub :: t).filter (fun c => !c.hasId j) = s ++ t := by
      rw [List.filter_append, List.filter_cons, filter_hasId_of_not_mem j s hs,
        filter_hasId_of_not_mem j t ht]
      simp [Node.hasId]
    rw [hfilter]
    refine ⟨appendChild_split s t j tag sub _ rfl hs ht, ?_⟩
    rw [List.append_assoc]
    exact List.Perm.append_left s (List.perm_append_singleton _ _)

theorem ConsistentComparator.flip_lt {cmp : String → String → Int}
    (h : ConsistentComparator cmp) {a b : String} (hab : cmp a b < 0) : 0 < cmp b a := by
  rcases lt_trichotomy (cmp b a) 0 with hlt | heq | hgt
  · have h1 := h.lt_trans a b a hab hlt
    rw [h.eq_refl] at h1
    omega
  · have h1 := h.eq_symm b a heq
    omega
  · exact hgt

theorem ConsistentComparator.flip_gt {cmp : String → String → Int}
    (h : ConsistentComparator cmp) {a b : String} (hab : 0 < cmp a b) : cmp b a < 0 := by
  rcases lt_trichotomy (cmp b a) 0 with hlt | heq | hgt
  · exact hlt
  · have h1 := h.eq_symm b a heq
    omega
  · have h1 := h.gt_trans a b a hab hgt
    rw [h.eq_refl] at h1
    omega

theorem ConsistentComparator.le_total {cmp : String → String → Int}
    (h : ConsistentComparator cmp) (a b : String) : cmp a b ≤ 0 ∨ cmp b a ≤ 0 := by
  by_contra hcon
  push_neg at hcon
  have h1 := h.flip_gt hcon.1
  omega

theorem ConsistentComparator.le_trans {cmp : String → String → Int}
    (h : ConsistentComparator cmp) {a b c : String} (hab : cmp a b ≤ 0) (hbc : cmp b c ≤ 0) :
    cmp a c ≤ 0 := by
  by_contra hcon
  push_neg at hcon
  have hca := h.flip_gt hcon
  rcases lt_or_eq_of_le hab with hab1 | hab1
  · have hcb := h.lt_trans c a b hca hab1
    rcases lt_or_eq_of_le hbc with hbc1 | hbc1
    · have h1 := h.flip_lt hbc1
      omega
    · have h1 := h.eq_symm b c hbc1
      omega
  · rcases lt_or_eq_of_le hbc with hbc1 | hbc1
    · have hba := h.lt_trans b c a hbc1 hca
      have h1 := h.eq_symm a b hab1
      omega
    · have h1 := h.eq_trans a b c hab1 hbc1
      omega

theorem compareChars_refl (a : List Char) : compareChars a a = 0 := by
  induction a with
  | nil => rfl
  | cons x t ih => simp [compareChars, ih]

theorem compareChars_symm (a b : List Char) (h : compareChars a b = 0) :
    compareChars b a = 0 := by
  induction a generalizing b with
  | nil =>
    cases b with
    | nil => rfl
    | cons y s => simp [compareChars] at h
  | cons x t ih =>
    cases b with
    | nil => simp [compareChars] at h
    | cons y s =>
      simp only [compareChars] at h ⊢
      split_ifs at h ⊢ <;> first | omega | exact ih s h

theorem compareChars_eq_trans (a b c : List Char) (h1 : compareChars a b = 0)
    (h2 : compareChars b c = 0) : compareChars a c = 0 := by
  induction a generalizing b c with
  | nil =>
    cases b with
    | nil => exact h2
    | cons y s => simp [compareChars] at h1
  | cons x t ih =>
    cases b with
    | nil => simp [compareChars] at h1
    | cons y s =>
      cases c with
      | nil => simp [compareChars] at h2
      | cons z u =>
        simp only [compareChars] at h1 h2 ⊢
        split_ifs at h1 h2 ⊢ <;> first | omega | exact ih s u h1 h2

theorem compareChars_lt_trans (a b c : List Char) (h1 : compareChars a b < 0)
    (h2 : compareChars b c < 0) : compareChars a c < 0 := by
  induction a generalizing b c with
  | nil =>
    cases b with
    | nil => simp [compareChars] at h1
    | cons y s =>
      cases c with
      | nil => simp [compareChars] at h2
      | cons z u => simp [compareChars]
  | cons x t ih =>
    cases b with
    | nil => simp [compareChars] at h1
    | cons y s =>
      cases c with
      | nil => simp [compareChars] at h2
      | cons z u =>
        simp only [compareChars] at h1 h2 ⊢
        split_ifs at h1 h2 ⊢ <;> first | omega | exact ih s u h1 h2

theorem compareChars_gt_trans (a b c : List Char) (h1 : 0 < compareChars a b)
    (h2 : 0 < compareChars b c) : 0 < compareChars a c := by
  induction a generalizing b c with
  | nil =>
    cases b with
    | nil => simp [compareChars] at h1
    | cons y s => simp [compareChars] at h1
  | cons x t ih =>
    cases b with
    | nil =>
      cases c with
      | nil => simp [compareChars]
      | cons z u => simp [compareChars] at h2
    | cons y s =>
      cases c with
      | nil => simp [compareChars]
      | cons z u =>
        simp only [compareChars] at h1 h2 ⊢
        split_ifs at h1 h2 ⊢ <;> first | omega | exact ih s u h1 h2

/-- The code point order is a consistent comparator. -/
theorem codePointCompare_consistent : ConsistentComparator codePointCompare where
  eq_refl a := compareChars_refl a.data
  eq_symm a b := compareChars_symm a.data b.data
  eq_trans a b c := compareChars_eq_trans a.data b.data c.data
  lt_trans a b c := compareChars_lt_trans a.data b.data c.data
  gt_trans a b c := compareChars_gt_trans a.data b.data c.data

theorem getElementById_setTBodyIn (elems : List Table) (tableId : String) (tb : TBody)
    (table : Table) (h : getElementById ⟨elems⟩ tableId = some table) :
    getElementById ⟨setTBodyIn tableId tb elems⟩ tableId = some { table with tbody := some tb } := by
  unfold getElementById at *
  induction elems with
  | nil => simp at h
  | cons e rest ih =>
    by_cases he : e.id = tableId
    · simp only [List.find?_cons, he, decide_True] at h
      cases h
      simp [setTBodyIn, he]
    · simp only [List.find?_cons, he, decide_False] at h
      simp only [setTBodyIn, he, if_false, List.find?_cons, decide_False]
      exact ih h

theorem setTBodyIn_idem (elems : List Table) (tableId : String) (tb : TBody) :
    setTBodyIn tableId tb (setTBodyIn tableId tb elems) = setTBodyIn tableId tb elems := by
  induction elems with
  | nil => rfl
  | cons e rest ih =>
    by_cases he : e.id = tableId
    · simp [setTBodyIn, he]
    · simp [setTBodyIn, he, ih]

theorem rowLe_total {lc : String → String → Int} (h : ConsistentComparator lc) (col : Nat) :
    IsTotal Node (RowLe lc col) :=
  ⟨fun a b => h.le_total (sortKey col a) (sortKey col b)⟩

theorem rowLe_trans {lc : String → String → Int} (h : ConsistentComparator lc) (col : Nat) :
    IsTrans Node (RowLe lc col) :=
  ⟨fun _ _ _ hab hbc => h.le_trans hab hbc⟩

theorem sortKey_of_cell (col : Nat) (r x : Node) (h : (cells r)[col]? = some x) :
    sortKey col r = jsTrim x.textContent := by
  unfold sortKey
  rw [List.getD_eq_getElem?_getD, List.getElem?_map, h]
  rfl

theorem compareRows_of_cells (lc : String → String → Int) (col : Nat) (a b : Node)
    (ha : col < (cells a).length) (hb : col < (cells b).length) :
    compareRows lc col a b = .ok (lc (sortKey col a) (sortKey col b)) := by
  have h1 : (cells a)[col]? = some (cells a)[col] := List.getElem?_eq_getElem ha
  have h2 : (cells b)[col]? = some (cells b)[col] := List.getElem?_eq_getElem hb
  unfold compareRows
  rw [h1, h2, sortKey_of_cell col a _ h1, sortKey_of_cell col b _ h2]

theorem insertSorted_of_cells (lc : String → String → Int) (col : Nat) (a : Node) (l : List Node)
    (ha : col < (cells a).length) (hl : ∀ b ∈ l, col < (cells b).length) :
    insertSorted (compareRows lc col) a l = .ok (List.orderedInsert (RowLe lc col) a l) := by
  induction l with
  | nil => rfl
  | cons b t ih =>
    have hb := hl b (List.mem_cons_self _ _)
    have ht : ∀ x ∈ t, col < (cells x).length := fun x hx => hl x (List.mem_cons_of_mem _ hx)
    simp only [insertSorted, compareRows_of_cells lc col a b ha hb, List.orderedInsert]
    by_cases h : lc (sortKey col a) (sortKey col b) ≤ 0
    · simp [h, RowLe]
    · simp [h, RowLe, ih ht]

theorem arraySort_of_cells (lc : String → String → Int) (col : Nat) (l : List Node)
    (hl : ∀ b ∈ l, col < (cells b).length) :
    arraySort (compareRows lc col) l = .ok (List.insertionSort (RowLe lc col) l) := by
  induction l with
  | nil => rfl
  | cons a t ih =>
    have ha := hl a (List.mem_cons_self _ _)
    have ht : ∀ x ∈ t, col < (cells x).length := fun x hx => hl x (List.mem_cons_of_mem _ hx)
    simp only [arraySort, ih ht, List.insertionSort]
    exact insertSorted_of_cells lc col a _ ha
      (fun b hb => ht b ((List.mem_insertionSort (RowLe lc col)).1 hb))

theorem subtree_eq_cons (n : Node) : n.subtree = n :: subtreeList n.children := by
  cases n <;> simp [Node.subtree, Node.children, subtreeList]

/-- In a flat body the rows are the `tr` children of the body. -/
theorem querySelectorAllTr_flat (cs : List Node) (hflat : FlatBody ⟨cs⟩) :
    querySelectorAllTr ⟨cs⟩ = cs.filter (fun n => n.isTag "tr") := by
  unfold querySelectorAllTr
  unfold FlatBody at hflat
  simp only at hflat ⊢
  induction cs with
  | nil => simp [subtreeList]
  | cons a rest ih =>
    have hin : (subtreeList a.children).filter (fun n => n.isTag "tr") = [] := by
      rw [List.filter_eq_nil_iff]
      intro d hd
      simp [hflat a (List.mem_cons_self _ _) d hd]
    have hrest := ih (fun c hc => hflat c (List.mem_cons_of_mem _ hc))
    rw [subtreeList, List.filter_append, hrest, subtree_eq_cons, List.filter_cons, hin]
    by_cases ha : a.isTag "tr" = true
    · simp [ha]
    · simp [ha]

theorem isSome_id_of_isTag (n : Node) (tag : String) (h : n.isTag tag = true) :
    ∃ i, n.id? = some i := by
  cases n with
  | text d => simp [Node.isTag] at h
  | comment d => simp [Node.isTag] at h
  | element j t cs => exact ⟨j, rfl⟩

theorem mem_listIds_of_mem (cs : List Node) (x : Node) (i : Nat) (hx : x ∈ cs)
    (hid : x.id? = some i) : i ∈ listIds cs := by
  simp only [listIds, List.mem_flatMap]
  exact ⟨x, hx, mem_nodeIds_of_id x i hid⟩

/-- With distinct identities two children of the body with the same identity
are the same child. -/
theorem child_unique (cs : List Node) (c r : Node) (i : Nat) (hnd : (listIds cs).Nodup)
    (hc : c ∈ cs) (hr : r ∈ cs) (hci : c.id? = some i) (hri : r.id? = some i) : c = r := by
  obtain ⟨s, t, rfl⟩ := List.append_of_mem hr
  rw [listIds_append, listIds_cons] at hnd
  have hir : i ∈ nodeIds r := mem_nodeIds_of_id r i hri
  have hs : i ∉ listIds s := fun hm =>
    (List.nodup_append.1 hnd).2.2 hm (List.mem_append_left _ hir)
  have ht : i ∉ listIds t := fun hm =>
    (List.nodup_append.1 (List.nodup_append.1 hnd).2.1).2.2 hir hm
  rcases List.mem_append.1 hc with h1 | h1
  · exact absurd (mem_listIds_of_mem s c i h1 hci) hs
  · rcases List.mem_cons.1 h1 with h2 | h2
    · exact h2
    · exact absurd (mem_listIds_of_mem t c i h2 hci) ht

theorem nodup_map_id_filter (cs : List Node) (p : Node → Bool) (hnd : (listIds cs).Nodup)
    (hp : ∀ c, p c = true → ∃ i, c.id? = some i) : ((cs.filter p).map Node.id?).Nodup := by
  induction cs with
  | nil => simp
  | cons a rest ih =>
    rw [listIds_cons] at hnd
    have hrest := ih (List.nodup_append.1 hnd).2.1
    rw [List.filter_cons]
    by_cases hpa : p a = true
    · obtain ⟨i, hi⟩ := hp a hpa
      simp only [hpa, if_true, List.map_cons, List.nodup_cons]
      refine ⟨?_, hrest⟩
      intro hm
      obtain ⟨x, hx, hxe⟩ := List.mem_map.1 hm
      rw [hi] at hxe
      have hxr : x ∈ rest := (List.mem_filter.1 hx).1
      exact (List.nodup_append.1 hnd).2.2 (mem_nodeIds_of_id a i hi)
        (mem_listIds_of_mem rest x i hxr hxe)
    · simp only [hpa, Bool.false_eq_true, if_false]
      exact hrest

theorem listIds_perm (cs cs1 : List Node) (h : cs1.Perm cs) : (listIds cs1).Perm (listIds cs) :=
  List.Perm.flatMap_right nodeIds h

theorem foldl_appendChild_children (l : List Node) (cs : List Node)
    (hnd : (listIds cs).Nodup) (hmem : ∀ r ∈ l, r ∈ cs)
    (hid : ∀ r ∈ l, ∃ i, r.id? = some i) (hl : (l.map Node.id?).Nodup) :
    (l.foldl appendChild ⟨cs⟩).children =
      cs.filter (fun c => decide (c.id? ∉ l.map Node.id?)) ++ l := by
  induction l generalizing cs with
  | nil => simp
  | cons r t ih =>
    obtain ⟨i, hi⟩ := hid r (List.mem_cons_self _ _)
    rw [List.map_cons, List.nodup_cons] at hl
    obtain ⟨hstep, hperm⟩ := appendChild_child cs r i hnd (hmem r (List.mem_cons_self _ _)) hi
    have hnd1 : (listIds (cs.filter (fun c => !c.hasId i) ++ [r])).Nodup :=
      (listIds_perm _ _ hperm).nodup_iff.2 hnd
    have hmem1 : ∀ x ∈ t, x ∈ cs.filter (fun c => !c.hasId i) ++ [r] := by
      intro x hx
      refine List.mem_append_left _ (List.mem_filter.2 ⟨hmem x (List.mem_cons_of_mem _ hx), ?_⟩)
      cases hh : x.hasId i with
      | false => rfl
      | true =>
        exfalso
        apply hl.1
        rw [hi, ← (hasId_iff x i).1 hh]
        exact List.mem_map_of_mem _ hx
    rw [List.foldl_cons, hstep,
      ih _ hnd1 hmem1 (fun x hx => hid x (List.mem_cons_of_mem _ hx)) hl.2]
    rw [List.filter_append, List.filter_filter]
    have h1 : [r].filter (fun c => decide (c.id? ∉ t.map Node.id?)) = [r] := by
      rw [List.filter_cons]
      simp only [hl.1, not_false_eq_true, decide_True, if_true, List.filter_nil]
    rw [h1]
    have h2 : cs.filter (fun a => (decide (a.id? ∉ t.map Node.id?) && !a.hasId i)) =
        cs.filter (fun c => decide (c.id? ∉ (r :: t).map Node.id?)) := by
      apply List.filter_congr
      intro c _
      have hiff : (c.hasId i = true) ↔ c.id? = r.id? := by rw [hi]; exact hasId_iff c i
      cases hh : c.hasId i with
      | false =>
        have hne : ¬ c.id? = r.id? := fun e => by
          rw [hiff.2 e] at hh
          exact absurd hh (by decide)
        simp [hne]
      | true =>
        have he : c.id? = r.id? := hiff.1 hh
        simp [he]
    rw [h2]
    simp

/-- When the identities are distinct and `l` lists the `tr` children of the
body, the children whose identity is not among `l` are the children that are
not rows. -/
theorem filter_not_moved (cs : List Node) (l : List Node) (hnd : (listIds cs).Nodup)
    (hp : l.Perm (cs.filter (fun n => n.isTag "tr"))) :
    cs.filter (fun c => decide (c.id? ∉ l.map Node.id?)) =
      cs.filter (fun c => !c.isTag "tr") := by
  apply List.filter_congr
  intro c hc
  cases htag : c.isTag "tr" with
  | true =>
    have hcl : c ∈ l := hp.mem_iff.2 (List.mem_filter.2 ⟨hc, htag⟩)
    have hm : c.id? ∈ l.map Node.id? := List.mem_map_of_mem _ hcl
    simp [hm]
  | false =>
    have hm : c.id? ∉ l.map Node.id? := by
      intro hmem
      obtain ⟨x, hx, hxe⟩ := List.mem_map.1 hmem
      have hxf := List.mem_filter.1 (hp.mem_iff.1 hx)
      obtain ⟨i, hi⟩ := isSome_id_of_isTag x "tr" hxf.2
      have hcx : c = x := child_unique cs c x i hnd hc hxf.1 (by rw [← hxe, hi]) hi
      rw [hcx, hxf.2] at htag
      exact absurd htag (by decide)
    simp [hm]

/-- The document `sortTable` returns for a flat body in which every row has
the cell: the children that are not rows keep their order at the front and
the rows follow in the order of the stable sort. -/
theorem sortTable_of_cells (lc : String → String → Int) (doc : Document) (tableId : String)
    (col : Nat) (table : Table) (tbody : TBody)
    (htable : getElementById doc tableId = some table) (htbody : table.tbody = some tbody)
    (hcells : ∀ r ∈ querySelectorAllTr tbody, col < (cells r).length)
    (hflat : FlatBody tbody) (hnodes : DistinctNodes tbody) :
    sortTable lc doc tableId col =
      .ok ⟨setTBodyIn tableId
        ⟨tbody.children.filter (fun c => !c.isTag "tr") ++
          (querySelectorAllTr tbody).insertionSort (RowLe lc col)⟩
        doc.elements⟩ := by
  cases tbody with
  | mk cs =>
    have hrows := querySelectorAllTr_flat cs hflat
    have hperm := List.perm_insertionSort (RowLe lc col) (querySelectorAllTr ⟨cs⟩)
    have hperm2 : ((querySelectorAllTr ⟨cs⟩).insertionSort (RowLe lc col)).Perm
        (cs.filter (fun n => n.isTag "tr")) := by
      rw [← hrows]
      exact hperm
    have hmem : ∀ r ∈ (querySelectorAllTr ⟨cs⟩).insertionSort (RowLe lc col), r ∈ cs :=
      fun r hr => (List.mem_filter.1 (hperm2.mem_iff.1 hr)).1
    have hid : ∀ r ∈ (querySelectorAllTr ⟨cs⟩).insertionSort (RowLe lc col),
        ∃ i, r.id? = some i :=
      fun r hr => isSome_id_of_isTag r "tr" (List.mem_filter.1 (hperm2.mem_iff.1 hr)).2
    have hl : (((querySelectorAllTr ⟨cs⟩).insertionSort (RowLe lc col)).map Node.id?).Nodup :=
      (hperm2.map Node.id?).nodup_iff.2
        (nodup_map_id_filter cs _ hnodes (fun c hc => isSome_id_of_isTag c "tr" hc))
    have hfold := foldl_appendChild_children _ cs hnodes hmem hid hl
    rw [filter_not_moved cs _ hnodes hperm2] at hfold
    unfold sortTable
    simp only [htable, htbody, arraySort_of_cells lc col _ hcells]
    congr 2
    cases hres : List.foldl appendChild ⟨cs⟩
        ((querySelectorAllTr ⟨cs⟩).insertionSort (RowLe lc col)) with
    | mk cs1 =>
      rw [hres] at hfold
      simp only at hfold
      rw [hfold]

/-- The body after sorting a flat body is flat, has distinct identities, and
its rows are the sorted rows. -/
theorem sorted_body_props (lc : String → String → Int) (col : Nat) (tbody : TBody)
    (hflat : FlatBody tbody) (hnodes : DistinctNodes tbody) :
    FlatBody ⟨tbody.children.filter (fun c => !c.isTag "tr") ++
        (querySelectorAllTr tbody).insertionSort (RowLe lc col)⟩ ∧
    DistinctNodes ⟨tbody.children.filter (fun c => !c.isTag "tr") ++
        (querySelectorAllTr tbody).insertionSort (RowLe lc col)⟩ ∧
    querySelectorAllTr ⟨tbody.children.filter (fun c => !c.isTag "tr") ++
        (querySelectorAllTr tbody).insertionSort (RowLe lc col)⟩ =
      (querySelectorAllTr tbody).insertionSort (RowLe lc col) := by
  cases tbody with
  | mk cs =>
    have hrows := querySelectorAllTr_flat cs hflat
    have hperm2 : ((querySelectorAllTr ⟨cs⟩).insertionSort (RowLe lc col)).Perm
        (cs.filter (fun n => n.isTag "tr")) := by
      rw [← hrows]
      exact List.perm_insertionSort (RowLe lc col) (querySelectorAllTr ⟨cs⟩)
    have hmemcs : ∀ c ∈ cs.filter (fun c => !c.isTag "tr") ++
        (querySelectorAllTr ⟨cs⟩).insertionSort (RowLe lc col), c ∈ cs := by
      intro c hc
      rcases List.mem_append.1 hc with h | h
      · exact (List.mem_filter.1 h).1
      · exact (List.mem_filter.1 (hperm2.mem_iff.1 h)).1
    have hpermcs : (cs.filter (fun c => !c.isTag "tr") ++
        (querySelectorAllTr ⟨cs⟩).insertionSort (RowLe lc col)).Perm cs := by
      have h := List.filter_append_perm (fun c : Node => c.isTag "tr") cs
      exact (List.Perm.append_left _ hperm2).trans (List.perm_append_comm.trans h)
    have hflat1 : FlatBody ⟨cs.filter (fun c => !c.isTag "tr") ++
        (querySelectorAllTr ⟨cs⟩).insertionSort (RowLe lc col)⟩ :=
      fun c hc => hflat c (hmemcs c hc)
    refine ⟨hflat1, (listIds_perm _ _ hpermcs).nodup_iff.2 hnodes, ?_⟩
    rw [querySelectorAllTr_flat _ hflat1, List.filter_append, List.filter_filter]
    have h1 : cs.filter (fun a => (a.isTag "tr" && !a.isTag "tr")) = [] := by
      rw [List.filter_eq_nil_iff]
      intro a _
      cases a.isTag "tr" <;> simp
    have h2 : ((querySelectorAllTr ⟨cs⟩).insertionSort (RowLe lc col)).filter
        (fun n => n.isTag "tr") = (querySelectorAllTr ⟨cs⟩).insertionSort (RowLe lc col) := by
      rw [List.filter_eq_self]
      intro a ha
      exact (List.mem_filter.1 (hperm2.mem_iff.1 ha)).2
    rw [h1, h2, List.nil_append]

theorem compareRows_error (lc : String → String → Int) (col : Nat) (a b : Node)
    (h : ¬ col < (cells a).length ∨ ¬ col < (cells b).length) :
    compareRows lc col a b = .error .typeError := by
  unfold compareRows
  by_cases ha : col < (cells a).length
  · have hb : ¬ col < (cells b).length := h.resolve_left (fun hn => hn ha)
    rw [List.getElem?_eq_getElem ha, List.getElem?_eq_none (by omega)]
  · rw [List.getElem?_eq_none (by omega)]

theorem insertSorted_length {α : Type} (cmp : α → α → Except JsError Int) (a : α)
    (l s : List α) (h : insertSorted cmp a l = .ok s) : s.length = l.length + 1 := by
  induction l generalizing s with
  | nil =>
    simp only [insertSorted, Except.ok.injEq] at h
    subst h
    rfl
  | cons b t ih =>
    simp only [insertSorted] at h
    cases hc : cmp a b with
    | error e => rw [hc] at h; cases h
    | ok v =>
      rw [hc] at h
      simp only at h
      split_ifs at h
      · simp only [Except.ok.injEq] at h
        subst h
        rfl
      · cases hr : insertSorted cmp a t with
        | error e => rw [hr] at h; cases h
        | ok r =>
          rw [hr] at h
          simp only [Except.ok.injEq] at h
          subst h
          simp [ih r hr]

theorem arraySort_length {α : Type} (cmp : α → α → Except JsError Int)
    (l s : List α) (h : arraySort cmp l = .ok s) : s.length = l.length := by
  induction l generalizing s with
  | nil =>
    simp only [arraySort, Except.ok.injEq] at h
    subst h
    rfl
  | cons a t ih =>
    simp only [arraySort] at h
    cases hr : arraySort cmp t with
    | error e => rw [hr] at h; cases h
    | ok r =>
      rw [hr] at h
      simp only at h
      rw [insertSorted_length cmp a r s h, ih r hr]
      rfl

theorem arraySort_error_of_missing_cell (lc : String → String → Int) (col : Nat) (l : List Node)
    (hlen : 2 ≤ l.length) (hbad : ∃ r ∈ l, ¬ col < (cells r).length) :
    arraySort (compareRows lc col) l = .error .typeError := by
  induction l with
  | nil => simp at hlen
  | cons a rest ih =>
    simp only [arraySort]
    cases hr : arraySort (compareRows lc col) rest with
    | error e => cases e; rfl
    | ok s =>
      simp only
      have hslen := arraySort_length _ rest s hr
      cases s with
      | nil =>
        simp only [List.length_nil, List.length_cons] at hslen hlen
        omega
      | cons b s1 =>
        have herr : compareRows lc col a b = .error .typeError := by
          apply compareRows_error
          by_cases ha : col < (cells a).length
          · right
            obtain ⟨r, hrmem, hrbad⟩ := hbad
            rcases List.mem_cons.1 hrmem with h1 | h1
            · rw [h1] at hrbad
              exact absurd ha hrbad
            · by_cases hlen2 : 2 ≤ rest.length
              · rw [ih hlen2 ⟨r, h1, hrbad⟩] at hr
                cases hr
              · cases rest with
                | nil => cases h1
                | cons x rest1 =>
                  cases rest1 with
                  | nil =>
                    simp only [arraySort, insertSorted, Except.ok.injEq, List.cons.injEq,
                      and_true] at hr
                    rcases List.mem_singleton.1 h1 with rfl
                    rw [← hr.1]
                    exact hrbad
                  | cons y rest2 =>
                    simp only [List.length_cons] at hlen2
                    omega
          · left
            exact ha
        simp only [insertSorted, herr]

/-- The sort throws exactly when the comparator is called (at least two rows)
and some row has no cell at the column. -/
theorem arraySort_error_iff (lc : String → String → Int) (col : Nat) (l : List Node) :
    arraySort (compareRows lc col) l = .error .typeError ↔
      2 ≤ l.length ∧ ∃ r ∈ l, ¬ col < (cells r).length := by
  constructor
  · intro h
    by_contra hcon
    rw [not_and_or] at hcon
    rcases hcon with h1 | h1
    · cases l with
      | nil => simp [arraySort] at h
      | cons a rest =>
        cases rest with
        | nil => simp [arraySort, insertSorted] at h
        | cons b rest1 =>
          simp only [List.length_cons] at h1
          omega
    · push_neg at h1
      rw [arraySort_of_cells lc col l h1] at h
      cases h
  · rintro ⟨h1, h2⟩
    exact arraySort_error_of_missing_cell lc col l h1 h2

/-- C2 as stated fails for a body with a table nested in a cell: the nested row
is sorted with the others and moved into the body, which changes the text of
the row that held it. The rows end with the keys `a`, `x`, `b`, not in order,
and the body has three rows where it had two. -/
theorem sortTable_nested_not_sorted :
    (∀ r ∈ querySelectorAllTr nestedBody, 0 < (cells r).length) ∧
    sortTable codePointCompare ⟨[⟨"t", some nestedBody⟩]⟩ "t" 0 =
      .ok ⟨[⟨"t", some nestedBodyOnce⟩]⟩ ∧
    (querySelectorAllTr nestedBody).map (sortKey 0) = ["ax", "a", "b"] ∧
    (querySelectorAllTr nestedBodyOnce).map (sortKey 0) = ["a", "x", "b"] ∧
    codePointCompare "x" "b" = 1 ∧
    (nestedBody.children.filter (fun n => n.isTag "tr")).map Node.id? = [some 1, some 2] ∧
    (nestedBodyOnce.children.filter (fun n => n.isTag "tr")).map Node.id? =
      [some 3, some 1, some 2] := by
  refine ⟨by decide, rfl, by decide, by decide, by decide, by decide, by decide⟩

/-- C2 (amended): when the table exists, has a body whose rows are all
children of the body (no table nested in a cell), every body row has a cell at
`columnIndex` and `localeCompare` is a consistent comparator, `sortTable`
returns normally; the body rows afterwards are a permutation of the body rows
before and stand in non-decreasing order of the trimmed text of that cell; the
child nodes that are not rows are kept. In particular column texts
`b`, `a`, `c` become `a`, `b`, `c` whenever `a` sorts before `b` and `b`
before `c`. -/
theorem sortTable_sorts_rows (lc : String → String → Int) (hc : ConsistentComparator lc)
    (doc : Document) (tableId : String) (columnIndex : Nat) (table : Table) (tbody : TBody)
    (htable : getElementById doc tableId = some table) (htbody : table.tbody = some tbody)
    (hcells : ∀ r ∈ querySelectorAllTr tbody, columnIndex < (cells r).length)
    (hflat : FlatBody tbody) (hnodes : DistinctNodes tbody) :
    ∃ tbody1 : TBody,
      sortTable lc doc tableId columnIndex = .ok ⟨setTBodyIn tableId tbody1 doc.elements⟩ ∧
      getElementById ⟨setTBodyIn tableId tbody1 doc.elements⟩ tableId =
        some { table with tbody := some tbody1 } ∧
      (querySelectorAllTr tbody1).Perm (querySelectorAllTr tbody) ∧
      (querySelectorAllTr tbody1).Pairwise (fun a b =>
        lc (sortKey columnIndex a) (sortKey columnIndex b) ≤ 0) ∧
      (∀ r ∈ querySelectorAllTr tbody1, ∃ x, (cells r)[columnIndex]? = some x ∧
        sortKey columnIndex r = jsTrim x.textContent) ∧
      tbody1.children = tbody.children.filter (fun c => !c.isTag "tr") ++
        querySelectorAllTr tbody1 ∧
      (lc "a" "b" < 0 → lc "b" "c" < 0 →
        sortTable lc ⟨[⟨"t", some ⟨[
          .element 1 "tr" [.element 11 "td" [.text "x"], .element 12 "td" [.text "b"]],
          .element 2 "tr" [.element 21 "td" [.text "y"], .element 22 "td" [.text "a"]],
          .element 3 "tr" [.element 31 "td" [.text "z"], .element 32 "td" [.text "c"]]]⟩⟩]⟩
          "t" 1 =
        .ok ⟨[⟨"t", some ⟨[
          .element 2 "tr" [.element 21 "td" [.text "y"], .element 22 "td" [.text "a"]],
          .element 1 "tr" [.element 11 "td" [.text "x"], .element 12 "td" [.text "b"]],
          .element 3 "tr" [.element 31 "td" [.text "z"], .element 32 "td" [.text "c"]]]⟩⟩]⟩) := by
  obtain ⟨_, _, hrows⟩ := sorted_body_props lc columnIndex tbody hflat hnodes
  have hperm := List.perm_insertionSort (RowLe lc columnIndex) (querySelectorAllTr tbody)
  refine ⟨_, sortTable_of_cells lc doc tableId columnIndex table tbody htable htbody hcells
    hflat hnodes, ?_, ?_, ?_, ?_, ?_, ?_⟩
  · cases doc with
    | mk elems => exact getElementById_setTBodyIn elems tableId _ table htable
  · rw [hrows]
    exact hperm
  · rw [hrows]
    haveI := rowLe_total hc columnIndex
    haveI := rowLe_trans hc columnIndex
    exact List.sorted_insertionSort (RowLe lc columnIndex) (querySelectorAllTr tbody)
  · rw [hrows]
    intro r hr
    have hlen := hcells r (hperm.mem_iff.1 hr)
    exact ⟨(cells r)[columnIndex], List.getElem?_eq_getElem hlen,
      sortKey_of_cell columnIndex r _ (List.getElem?_eq_getElem hlen)⟩
  · rw [hrows]
  · intro hab hbc
    have hac : lc "a" "c" < 0 := hc.lt_trans _ _ _ hab hbc
    have hba : ¬ lc "b" "a" ≤ 0 := by
      have := hc.flip_lt hab
      omega
    have ka : jsTrim (Node.textContent (.element 22 "td" [.text "a"])) = "a" := by decide
    have kb : jsTrim (Node.textContent (.element 12 "td" [.text "b"])) = "b" := by decide
    have kc : jsTrim (Node.textContent (.element 32 "td" [.text "c"])) = "c" := by decide
    simp [sortTable, getElementById, querySelectorAllTr, subtreeList, Node.subtree, Node.isTag,
      arraySort, insertSorted, compareRows, cells, Node.children,
      ka, kb, kc, hba, le_of_lt hac, le_of_lt hbc, setTBodyIn, appendChild, Node.id?,
      Node.hasId, removeList, Node.removeNode]

/-- Witness for C2: a flat body with whitespace and a comment between three
rows, sorted on column 1 by code point order. -/
theorem sortTable_sorts_rows_witness :
    ∃ tbody1 : TBody,
      sortTable codePointCompare ⟨[⟨"t", some plainBody⟩]⟩ "t" 1 =
        .ok ⟨setTBodyIn "t" tbody1 [⟨"t", some plainBody⟩]⟩ ∧
      (querySelectorAllTr tbody1).Perm (querySelectorAllTr plainBody) ∧
      (querySelectorAllTr tbody1).Pairwise (fun a b =>
        codePointCompare (sortKey 1 a) (sortKey 1 b) ≤ 0) := by
  obtain ⟨tbody1, h1, _, h3, h4, _⟩ := sortTable_sorts_rows codePointCompare
    codePointCompare_consistent ⟨[⟨"t", some plainBody⟩]⟩ "t" 1 ⟨"t", some plainBody⟩ plainBody
    rfl rfl (by decide) (by unfold FlatBody; decide) (by unfold DistinctNodes; decide)
  exact ⟨tbody1, h1, h3, h4⟩

/-- C3 as stated fails for a body with a table nested in a cell: the first
call leaves the rows 3, 1, 2 and the second call reorders them to 3, 2, 1,
because the first call changed the text of row 1. -/
theorem sortTable_nested_not_idempotent :
    (∀ r ∈ querySelectorAllTr nestedBody, 0 < (cells r).length) ∧
    sortTable codePointCompare ⟨[⟨"t", some nestedBody⟩]⟩ "t" 0 =
      .ok ⟨[⟨"t", some nestedBodyOnce⟩]⟩ ∧
    sortTable codePointCompare ⟨[⟨"t", some nestedBodyOnce⟩]⟩ "t" 0 =
      .ok ⟨[⟨"t", some nestedBodyTwice⟩]⟩ ∧
    (querySelectorAllTr nestedBodyOnce).map Node.id? = [some 3, some 1, some 2] ∧
    (querySelectorAllTr nestedBodyTwice).map Node.id? = [some 3, some 2, some 1] := by
  refine ⟨by decide, rfl, rfl, by decide, by decide⟩

/-- C3 (amended): for a table with a body whose rows are all children of the
body (no table nested in a cell), every body row having a cell at
`columnIndex`, a second call of `sortTable` right after the first returns the
document of the first call unchanged, so the row sequence after two calls is
the row sequence after one, also when rows share the sort key and differ
elsewhere. -/
theorem sortTable_idempotent (lc : String → String → Int) (hc : ConsistentComparator lc)
    (doc : Document) (tableId : String) (columnIndex : Nat) (table : Table) (tbody : TBody)
    (htable : getElementById doc tableId = some table) (htbody : table.tbody = some tbody)
    (hcells : ∀ r ∈ querySelectorAllTr tbody, columnIndex < (cells r).length)
    (hflat : FlatBody tbody) (hnodes : DistinctNodes tbody) :
    ∃ doc1 : Document,
      sortTable lc doc tableId columnIndex = .ok doc1 ∧
      sortTable lc doc1 tableId columnIndex = .ok doc1 := by
  have hfirst := sortTable_of_cells lc doc tableId columnIndex table tbody htable htbody hcells
    hflat hnodes
  obtain ⟨hflat1, hnodes1, hrows⟩ := sorted_body_props lc columnIndex tbody hflat hnodes
  have hperm := List.perm_insertionSort (RowLe lc columnIndex) (querySelectorAllTr tbody)
  have hsorted : ((querySelectorAllTr tbody).insertionSort (RowLe lc columnIndex)).Sorted
      (RowLe lc columnIndex) := by
    haveI := rowLe_total hc columnIndex
    haveI := rowLe_trans hc columnIndex
    exact List.sorted_insertionSort (RowLe lc columnIndex) (querySelectorAllTr tbody)
  refine ⟨_, hfirst, ?_⟩
  cases doc with
  | mk elems =>
    have hsecond := sortTable_of_cells lc ⟨setTBodyIn tableId _ elems⟩ tableId columnIndex _ _
      (getElementById_setTBodyIn elems tableId _ table htable) rfl
      (by
        rw [hrows]
        intro r hr
        exact hcells r (hperm.mem_iff.1 hr))
      hflat1 hnodes1
    have hmoved : List.filter (fun a : Node => !a.isTag "tr")
        (List.insertionSort (RowLe lc columnIndex) (querySelectorAllTr tbody)) = [] := by
      rw [List.filter_eq_nil_iff]
      intro c hcmem
      have hc1 : c ∈ querySelectorAllTr tbody := hperm.mem_iff.1 hcmem
      have hc2 : c.isTag "tr" = true := (List.mem_filter.1 hc1).2
      simp [hc2]
    have hchildren : List.filter (fun c : Node => !c.isTag "tr")
          (List.filter (fun c => !c.isTag "tr") tbody.children ++
            List.insertionSort (RowLe lc columnIndex) (querySelectorAllTr tbody)) ++
        List.insertionSort (RowLe lc columnIndex)
          (querySelectorAllTr ⟨List.filter (fun c => !c.isTag "tr") tbody.children ++
            List.insertionSort (RowLe lc columnIndex) (querySelectorAllTr tbody)⟩) =
        List.filter (fun c => !c.isTag "tr") tbody.children ++
          List.insertionSort (RowLe lc columnIndex) (querySelectorAllTr tbody) := by
      rw [hrows, hsorted.insertionSort_eq, List.filter_append, List.filter_filter, hmoved,
        List.append_nil]
      simp only [Bool.and_self]
    rw [hsecond]
    dsimp only
    rw [hchildren, setTBodyIn_idem]

/-- Witness for C3: the rows 2 and 3 of the flat example share the sort key
`a` and differ in column 0. -/
theorem sortTable_idempotent_witness :
    ∃ doc1 : Document,
      sortTable codePointCompare ⟨[⟨"t", some plainBody⟩]⟩ "t" 1 = .ok doc1 ∧
      sortTable codePointCompare doc1 "t" 1 = .ok doc1 :=
  sortTable_idempotent codePointCompare codePointCompare_consistent
    ⟨[⟨"t", some plainBody⟩]⟩ "t" 1 ⟨"t", some plainBody⟩ plainBody
    rfl rfl (by decide) (by unfold FlatBody; decide) (by unfold DistinctNodes; decide)

/-- C8 as stated fails: a table without a `tbody` makes `sortTable` throw (the
`tbody` is null when `querySelectorAll` is called on it); so does a body with
two rows one of which has no cell at `columnIndex`; and so does a row of a
nested table without the cell, although every row that is a child of the body
has it. -/
theorem sortTable_throws_on_missing_tbody_or_cell :
    sortTable codePointCompare ⟨[⟨"t", none⟩]⟩ "t" 0 = .error .typeError ∧
    sortTable codePointCompare
      ⟨[⟨"t", some ⟨[.element 1 "tr" [.element 11 "td" [.text "a"],
          .element 12 "td" [.text "b"]],
        .element 2 "tr" [.element 21 "td" [.text "c"]]]⟩⟩]⟩ "t" 1 = .error .typeError ∧
    sortTable codePointCompare
      ⟨[⟨"t", some ⟨[.element 1 "tr" [.element 11 "td" [.text "a"],
          .element 12 "td" [.element 13 "table" [.element 2 "tr" []]]]]⟩⟩]⟩ "t" 1 =
      .error .typeError := by
  refine ⟨rfl, rfl, rfl⟩

/-- C8 (amended): `sortTable` returns without an error and leaves the document
unchanged when no element has the id. When the element exists, it throws
exactly when the element has no `tbody`, or the `tbody` holds at least two
rows (at any depth) and one of them has no cell at `columnIndex`; in every
other case, in particular with fewer than two rows or with the cell present in
every row, it returns without an error. -/
theorem sortTable_error_iff (lc : String → String → Int) (doc : Document)
    (tableId : String) (columnIndex : Nat) :
    (getElementById doc tableId = none → sortTable lc doc tableId columnIndex = .ok doc) ∧
    (sortTable lc doc tableId columnIndex = .error .typeError ↔
      ∃ table, getElementById doc tableId = some table ∧
        (table.tbody = none ∨
          ∃ tbody, table.tbody = some tbody ∧ 2 ≤ (querySelectorAllTr tbody).length ∧
            ∃ r ∈ querySelectorAllTr tbody, ¬ columnIndex < (cells r).length)) ∧
    ((∃ doc1, sortTable lc doc tableId columnIndex = .ok doc1) ↔
      ¬ ∃ table, getElementById doc tableId = some table ∧
        (table.tbody = none ∨
          ∃ tbody, table.tbody = some tbody ∧ 2 ≤ (querySelectorAllTr tbody).length ∧
            ∃ r ∈ querySelectorAllTr tbody, ¬ columnIndex < (cells r).length)) := by
  have hmain : sortTable lc doc tableId columnIndex = .error .typeError ↔
      ∃ table, getElementById doc tableId = some table ∧
        (table.tbody = none ∨
          ∃ tbody, table.tbody = some tbody ∧ 2 ≤ (querySelectorAllTr tbody).length ∧
            ∃ r ∈ querySelectorAllTr tbody, ¬ columnIndex < (cells r).length) := by
    unfold sortTable
    cases htable : getElementById doc tableId with
    | none => simp
    | some table =>
      cases htbody : table.tbody with
      | none => simp [htbody]
      | some tbody =>
        simp only [Option.some.injEq, exists_eq_left', htbody, false_or, exists_eq_left']
        rw [← arraySort_error_iff lc columnIndex (querySelectorAllTr tbody)]
        cases hs : arraySort (compareRows lc columnIndex) (querySelectorAllTr tbody) with
        | error e => cases e; simp
        | ok s => simp
  refine ⟨?_, hmain, ?_⟩
  · intro hnone
    unfold sortTable
    rw [hnone]
  · rw [← hmain]
    cases hres : sortTable lc doc tableId columnIndex with
    | error e => cases e; simp
    | ok d => simp

/-- Witness for C8: no element with the id, document unchanged. -/
theorem sortTable_error_iff_witness :
    sortTable codePointCompare ⟨[⟨"t", some plainBody⟩]⟩ "u" 3 = .ok ⟨[⟨"t", some plainBody⟩]⟩ :=
  (sortTable_error_iff codePointCompare ⟨[⟨"t", some plainBody⟩]⟩ "u" 3).1 rfl

/-! ## Properties of the flash-message timers -/

theorem getElem?_updateAt_same (f : Alert → Alert) (i : Nat) (l : List Alert) :
    (updateAt f i l)[i]? = (l[i]?).map f := by
  induction l generalizing i with
  | nil => simp [updateAt]
  | cons a rest ih =>
    cases i with
    | zero => simp [updateAt]
    | succ k => simp [updateAt, ih]

theorem getElem?_updateAt_ne (f : Alert → Alert) (i j : Nat) (l : List Alert) (h : j ≠ i) :
    (updateAt f i l)[j]? = l[j]? := by
  induction l generalizing i j with
  | nil => simp [updateAt]
  | cons a rest ih =>
    cases i with
    | zero =>
      cases j with
      | zero => exact absurd rfl h
      | succ m => simp [updateAt]
    | succ k =>
      cases j with
      | zero => simp [updateAt]
      | succ m =>
        simp only [updateAt, List.getElem?_cons_succ]
        exact ih k m (fun e => h (by rw [e]))

theorem length_updateAt (f : Alert → Alert) (i : Nat) (l : List Alert) :
    (updateAt f i l).length = l.length := by
  induction l generalizing i with
  | nil => simp [updateAt]
  | cons a rest ih =>
    cases i with
    | zero => simp [updateAt]
    | succ k => simp [updateAt, ih]

theorem takeTimer_perm (k : Nat) (ts : List Timer) (t : Timer) (rest : List Timer)
    (h : takeTimer k ts = some (t, rest)) : ts.Perm (t :: rest) := by
  induction ts generalizing k rest with
  | nil => simp [takeTimer] at h
  | cons x xs ih =>
    cases k with
    | zero =>
      simp only [takeTimer, Option.some.injEq, Prod.mk.injEq] at h
      rw [h.1, h.2]
    | succ m =>
      simp only [takeTimer] at h
      cases hrec : takeTimer m xs with
      | none => rw [hrec] at h; simp at h
      | some pr =>
        obtain ⟨y, rest1⟩ := pr
        rw [hrec] at h
        simp only [Option.some.injEq, Prod.mk.injEq] at h
        obtain ⟨hy, hrest⟩ := h
        subst hy
        subst hrest
        exact ((ih m rest1 hrec).cons x).trans (List.Perm.swap y x rest1)

theorem foldl_setTimeout_fade (l : List Nat) (p : FlashPage) :
    l.foldl (fun q i => setTimeout q (.fade i) 5000) p =
      { p with timers := p.timers ++ l.map (fun i => ⟨p.clock + 5000, .fade i⟩) } := by
  induction l generalizing p with
  | nil => simp
  | cons i rest ih =>
    rw [List.foldl_cons, ih]
    simp [setTimeout]

theorem onReady_initialPage (styles : List (List Nat × String × String)) :
    onReady (initialPage styles) =
      { clock := 0,
        alerts := styles.map (fun s => ⟨s.1, false, s.2.1, s.2.2, none, none⟩),
        timers := (List.range styles.length).map (fun i => ⟨5000, .fade i⟩) } := by
  unfold onReady
  rw [foldl_setTimeout_fade]
  simp [initialPage]

theorem flashInv_onReady (slack : Nat) (styles : List (List Nat × String × String)) :
    FlashInv slack (onReady (initialPage styles)) := by
  rw [onReady_initialPage]
  refine ⟨?_, ?_, ?_⟩
  · simp only [List.map_map]
    have hfun : ((fun t : Timer => t.callback.index) ∘ fun i => (⟨5000, .fade i⟩ : Timer)) = id := by
      funext i
      rfl
    rw [hfun, List.map_id]
    exact List.nodup_range _
  · intro t ht
    simp only [List.mem_map, List.mem_range] at ht
    obtain ⟨i, hi, rfl⟩ := ht
    simp only [TimerOk, true_and]
    refine ⟨⟨styles[i].1, false, styles[i].2.1, styles[i].2.2, none, none⟩, ?_, rfl, rfl⟩
    rw [List.getElem?_map, List.getElem?_eq_getElem hi]
    rfl
  · intro i a ha
    rw [List.getElem?_map] at ha
    cases hs : styles[i]? with
    | none => rw [hs] at ha; simp at ha
    | some s =>
      rw [hs] at ha
      simp only [Option.map_some', Option.some.injEq] at ha
      subst ha
      have hi : i < styles.length := by
        by_contra hcon
        rw [List.getElem?_eq_none (by omega)] at hs
        cases hs
      simp only [AlertOk, true_and]
      refine ⟨?_, by omega⟩
      simp only [List.mem_map, List.mem_range]
      exact ⟨i, hi, rfl⟩

theorem alertOk_transfer (slack : Nat) (p q : FlashPage) (j : Nat) (b : Alert)
    (hclock : q.clock = p.clock)
    (hmem : ∀ t ∈ p.timers, t.callback.index = j → t ∈ q.timers)
    (h : AlertOk slack p j b) : AlertOk slack q j b := by
  unfold AlertOk at h ⊢
  cases hf : b.fadedAt with
  | none =>
    cases hr : b.removedAt with
    | none =>
      simp only [hf, hr] at h ⊢
      exact ⟨h.1, hmem _ h.2.1 rfl, by omega⟩
    | some tr => simp only [hf, hr] at h
  | some tf =>
    cases hr : b.removedAt with
    | none =>
      simp only [hf, hr] at h ⊢
      obtain ⟨h1, h2, h3, h4, h5, h6, h7, h8⟩ := h
      exact ⟨h1, h2, h3, h4, h5, by omega, hmem _ h7 rfl, by omega⟩
    | some tr =>
      simp only [hf, hr] at h ⊢
      obtain ⟨h1, h2, h3, h4, h5, h6, h7, h8⟩ := h
      exact ⟨h1, h2, h3, h4, h5, h6, h7, by omega⟩

theorem timerOk_transfer (p q : FlashPage) (t : Timer)
    (halerts : q.alerts[t.callback.index]? = p.alerts[t.callback.index]?)
    (h : TimerOk p t) : TimerOk q t := by
  unfold TimerOk at h ⊢
  cases hcb : t.callback with
  | fade i =>
    rw [hcb] at halerts
    simp only [hcb, Callback.index] at h halerts ⊢
    rw [halerts]
    exact h
  | remove i =>
    rw [hcb] at halerts
    simp only [hcb, Callback.index] at h halerts ⊢
    rw [halerts]
    exact h

theorem flashInv_advance (slack d : Nat) (p : FlashPage) (hinv : FlashInv slack p)
    (hg : ∀ t ∈ p.timers, p.clock + d ≤ t.due + slack) :
    FlashInv slack { p with clock := p.clock + d } := by
  refine ⟨hinv.nodup, fun t ht => timerOk_transfer p _ t rfl (hinv.timers t ht), ?_⟩
  intro i a ha
  have h := hinv.alerts i a ha
  unfold AlertOk at h ⊢
  cases hf : a.fadedAt with
  | none =>
    cases hr : a.removedAt with
    | none =>
      simp only [hf, hr] at h ⊢
      have hle := hg _ h.2.1
      exact ⟨h.1, h.2.1, hle⟩
    | some tr => simp only [hf, hr] at h
  | some tf =>
    cases hr : a.removedAt with
    | none =>
      simp only [hf, hr] at h ⊢
      obtain ⟨h1, h2, h3, h4, h5, h6, h7, h8⟩ := h
      have hle := hg _ h7
      exact ⟨h1, h2, h3, h4, h5, by omega, h7, hle⟩
    | some tr =>
      simp only [hf, hr] at h ⊢
      obtain ⟨h1, h2, h3, h4, h5, h6, h7, h8⟩ := h
      exact ⟨h1, h2, h3, h4, h5, h6, h7, by omega⟩

theorem flashInv_fire (slack k : Nat) (p : FlashPage) (hinv : FlashInv slack p)
    (t : Timer) (rest : List Timer) (htake : takeTimer k p.timers = some (t, rest))
    (hdue : t.due ≤ p.clock) :
    FlashInv slack (runCallback { p with timers := rest } t.callback) := by
  have hperm := takeTimer_perm k p.timers t rest htake
  have hnd : t.callback.index ∉ rest.map (fun x => x.callback.index) ∧
      (rest.map (fun x => x.callback.index)).Nodup := by
    have h := (hperm.map (fun x => x.callback.index)).nodup_iff.1 hinv.nodup
    rw [List.map_cons, List.nodup_cons] at h
    exact h
  have hrest : ∀ x ∈ rest, x ∈ p.timers ∧ x.callback.index ≠ t.callback.index := by
    intro x hx
    refine ⟨hperm.mem_iff.2 (List.mem_cons_of_mem _ hx), fun he => hnd.1 ?_⟩
    rw [← he]
    exact List.mem_map.2 ⟨x, hx, rfl⟩
  have hback : ∀ x ∈ p.timers, x = t ∨ x ∈ rest := by
    intro x hx
    exact List.mem_cons.1 (hperm.mem_iff.1 hx)
  have htmem : t ∈ p.timers := hperm.mem_iff.2 (List.mem_cons_self _ _)
  have htok := hinv.timers t htmem
  cases hcb : t.callback with
  | fade i =>
    unfold TimerOk at htok
    simp only [hcb] at htok hnd hrest
    simp only [Callback.index] at hnd hrest
    obtain ⟨hd, a, hai, haf, har⟩ := htok
    have haok := hinv.alerts i a hai
    unfold AlertOk at haok
    simp only [haf, har] at haok
    obtain ⟨hdoc, _, hclk⟩ := haok
    simp only [runCallback, setTimeout]
    refine ⟨?_, ?_, ?_⟩
    · simp only [List.map_append, List.map_cons, List.map_nil, Callback.index]
      have hp : (List.map (fun x : Timer => x.callback.index) rest ++ [i]).Perm
          (i :: List.map (fun x : Timer => x.callback.index) rest) := List.perm_append_singleton _ _
      exact hp.nodup_iff.2 (List.nodup_cons.2 hnd)
    · intro x hx
      simp only [List.mem_append, List.mem_singleton] at hx
      rcases hx with hx | hx
      · refine timerOk_transfer p _ x ?_ (hinv.timers x (hrest x hx).1)
        exact getElem?_updateAt_ne _ i _ _ (hrest x hx).2
      · subst hx
        simp only [TimerOk]
        refine ⟨⟨a.ancestors, a.detached, "opacity 0.5s", "0", some p.clock, a.removedAt⟩, p.clock,
          ?_, rfl, har, rfl⟩
        rw [getElem?_updateAt_same, hai]
        rfl
    · intro j b hb
      by_cases hj : j = i
      · subst hj
        simp only [] at hb
        rw [getElem?_updateAt_same, hai] at hb
        simp only [Option.map_some', Option.some.injEq] at hb
        subst hb
        simp only [AlertOk, har]
        refine ⟨hdoc, trivial, trivial, by omega, hclk, le_refl _, ?_, by omega⟩
        simp
      · simp only [] at hb
        rw [getElem?_updateAt_ne _ i j _ hj] at hb
        refine alertOk_transfer slack p _ j b rfl ?_ (hinv.alerts j b hb)
        intro x hx hxi
        simp only [List.mem_append, List.mem_singleton]
        rcases hback x hx with hxt | hxr
        · subst hxt
          rw [hcb] at hxi
          exact absurd hxi.symm hj
        · exact Or.inl hxr
  | remove i =>
    unfold TimerOk at htok
    simp only [hcb] at htok hnd hrest
    simp only [Callback.index] at hnd hrest
    obtain ⟨a, tf, hai, haf, har, hd⟩ := htok
    have haok := hinv.alerts i a hai
    unfold AlertOk at haok
    simp only [haf, har] at haok
    obtain ⟨_, hop, htr, h5, h5s, _, _, hclk⟩ := haok
    simp only [runCallback]
    refine ⟨hnd.2, ?_, ?_⟩
    · intro x hx
      refine timerOk_transfer p _ x ?_ (hinv.timers x (hrest x hx).1)
      exact getElem?_updateAt_ne _ i _ _ (hrest x hx).2
    · intro j b hb
      by_cases hj : j = i
      · subst hj
        simp only [] at hb
        rw [getElem?_updateAt_same, hai] at hb
        simp only [Option.map_some', Option.some.injEq] at hb
        subst hb
        simp only [AlertOk, haf]
        exact ⟨trivial, hop, htr, h5, h5s, by omega, by omega, le_refl _⟩
      · simp only [] at hb
        rw [getElem?_updateAt_ne _ i j _ hj] at hb
        refine alertOk_transfer slack p _ j b rfl ?_ (hinv.alerts j b hb)
        intro x hx hxi
        rcases hback x hx with hxt | hxr
        · subst hxt
          rw [hcb] at hxi
          exact absurd hxi.symm hj
        · exact hxr

theorem flashInv_loopStep (slack : Nat) (p q : FlashPage) (e : LoopEvent)
    (hinv : FlashInv slack p) (hstep : loopStep slack p e = some q) : FlashInv slack q := by
  cases e with
  | advance d =>
    simp only [loopStep] at hstep
    split_ifs at hstep with hg
    simp only [Option.some.injEq] at hstep
    subst hstep
    refine flashInv_advance slack d p hinv ?_
    intro t ht
    have := List.all_eq_true.1 hg t ht
    simpa using this
  | fire k =>
    simp only [loopStep] at hstep
    cases htake : takeTimer k p.timers with
    | none => rw [htake] at hstep; simp at hstep
    | some pr =>
      obtain ⟨t, rest⟩ := pr
      rw [htake] at hstep
      simp only at hstep
      split_ifs at hstep with hdue
      simp only [Option.some.injEq] at hstep
      subst hstep
      exact flashInv_fire slack k p hinv t rest htake hdue

theorem flashInv_run (slack : Nat) (evs : List LoopEvent) (p q : FlashPage)
    (hinv : FlashInv slack p) (hrun : run slack p evs = some q) : FlashInv slack q := by
  induction evs generalizing p with
  | nil =>
    simp only [run, Option.some.injEq] at hrun
    subst hrun
    exact hinv
  | cons e es ih =>
    simp only [run] at hrun
    cases hstep : loopStep slack p e with
    | none => rw [hstep] at hrun; simp at hrun
    | some r =>
      rw [hstep] at hrun
      exact ih r (flashInv_loopStep slack p r e hinv hstep) hrun

theorem loopStep_length (slack : Nat) (p q : FlashPage) (e : LoopEvent)
    (hstep : loopStep slack p e = some q) : q.alerts.length = p.alerts.length := by
  cases e with
  | advance d =>
    simp only [loopStep] at hstep
    split_ifs at hstep
    simp only [Option.some.injEq] at hstep
    subst hstep
    rfl
  | fire k =>
    simp only [loopStep] at hstep
    cases htake : takeTimer k p.timers with
    | none => rw [htake] at hstep; simp at hstep
    | some pr =>
      obtain ⟨t, rest⟩ := pr
      rw [htake] at hstep
      simp only at hstep
      split_ifs at hstep
      simp only [Option.some.injEq] at hstep
      subst hstep
      cases t.callback with
      | fade i => simp [runCallback, setTimeout, length_updateAt]
      | remove i => simp [runCallback, length_updateAt]

theorem run_length (slack : Nat) (evs : List LoopEvent) (p q : FlashPage)
    (hrun : run slack p evs = some q) : q.alerts.length = p.alerts.length := by
  induction evs generalizing p with
  | nil =>
    simp only [run, Option.some.injEq] at hrun
    subst hrun
    rfl
  | cons e es ih =>
    simp only [run] at hrun
    cases hstep : loopStep slack p e with
    | none => rw [hstep] at hrun; simp at hrun
    | some r =>
      rw [hstep] at hrun
      rw [ih r hrun, loopStep_length slack p r e hstep]

theorem alertLe_refl (a : Alert) : AlertLe a a := ⟨rfl, fun h => h, fun h => h⟩

theorem alertLe_trans (a b c : Alert) (h1 : AlertLe a b) (h2 : AlertLe b c) : AlertLe a c :=
  ⟨h2.1.trans h1.1, fun h => h2.2.1 (h1.2.1 h), fun h => h2.2.2 (h1.2.2 h)⟩

/-- One step of the event loop keeps every element and only moves its state
forward. -/
theorem loopStep_alertLe (slack : Nat) (p q : FlashPage) (e : LoopEvent)
    (hstep : loopStep slack p e = some q) (j : Nat) (a : Alert) (ha : p.alerts[j]? = some a) :
    ∃ b, q.alerts[j]? = some b ∧ AlertLe a b := by
  cases e with
  | advance d =>
    simp only [loopStep] at hstep
    split_ifs at hstep
    simp only [Option.some.injEq] at hstep
    subst hstep
    exact ⟨a, ha, alertLe_refl a⟩
  | fire k =>
    simp only [loopStep] at hstep
    cases htake : takeTimer k p.timers with
    | none => rw [htake] at hstep; simp at hstep
    | some pr =>
      obtain ⟨t, rest⟩ := pr
      rw [htake] at hstep
      simp only at hstep
      split_ifs at hstep
      simp only [Option.some.injEq] at hstep
      subst hstep
      cases hcb : t.callback with
      | fade i =>
        simp only [runCallback, setTimeout]
        by_cases hj : j = i
        · subst hj
          refine ⟨⟨a.ancestors, a.detached, "opacity 0.5s", "0", some p.clock, a.removedAt⟩,
            ?_, ?_⟩
          · rw [getElem?_updateAt_same, ha]
            rfl
          · exact ⟨rfl, fun h => h, fun _ => rfl⟩
        · refine ⟨a, ?_, alertLe_refl a⟩
          rw [getElem?_updateAt_ne _ i j _ hj, ha]
      | remove i =>
        simp only [runCallback]
        by_cases hj : j = i
        · subst hj
          refine ⟨⟨a.ancestors, true, a.transition, a.opacity, a.fadedAt, some p.clock⟩,
            ?_, ?_⟩
          · rw [getElem?_updateAt_same, ha]
            rfl
          · exact ⟨rfl, fun _ => rfl, fun h => h⟩
        · refine ⟨a, ?_, alertLe_refl a⟩
          rw [getElem?_updateAt_ne _ i j _ hj, ha]

theorem run_alertLe (slack : Nat) (evs : List LoopEvent) (p q : FlashPage)
    (hrun : run slack p evs = some q) (j : Nat) (a : Alert) (ha : p.alerts[j]? = some a) :
    ∃ b, q.alerts[j]? = some b ∧ AlertLe a b := by
  induction evs generalizing p a with
  | nil =>
    simp only [run, Option.some.injEq] at hrun
    subst hrun
    exact ⟨a, ha, alertLe_refl a⟩
  | cons e es ih =>
    simp only [run] at hrun
    cases hstep : loopStep slack p e with
    | none => rw [hstep] at hrun; simp at hrun
    | some r =>
      rw [hstep] at hrun
      obtain ⟨b, hb, hab⟩ := loopStep_alertLe slack p r e hstep j a ha
      obtain ⟨c, hc, hbc⟩ := ih r hrun b hb
      exact ⟨c, hc, alertLe_trans a b c hab hbc⟩

/-- An element that is in the document later was in the document before. -/
theorem inDocument_mono (p q : FlashPage)
    (hle : ∀ (j : Nat) (a : Alert), p.alerts[j]? = some a →
      ∃ b, q.alerts[j]? = some b ∧ AlertLe a b)
    (a b : Alert) (hab : AlertLe a b) (hq : inDocument q b = true) : inDocument p a = true := by
  unfold inDocument at hq ⊢
  rw [Bool.and_eq_true] at hq ⊢
  obtain ⟨hd, hall⟩ := hq
  constructor
  · cases hda : a.detached with
    | false => rfl
    | true =>
      rw [hab.2.1 hda] at hd
      exact absurd hd (by decide)
  · rw [List.all_eq_true] at hall ⊢
    intro j hj
    have hjb : j ∈ b.ancestors := by rw [hab.1]; exact hj
    have hqj := hall j hjb
    cases hpa : p.alerts[j]? with
    | none => rfl
    | some x =>
      obtain ⟨y, hy, hxy⟩ := hle j x hpa
      rw [hy] at hqj
      simp only at hqj ⊢
      cases hdx : x.detached with
      | false => rfl
      | true =>
        rw [hxy.2.1 hdx] at hqj
        exact absurd hqj (by decide)

theorem phase_rank_le_two (p : FlashPage) (a : Alert) : (phase p a).rank ≤ 2 := by
  unfold phase
  split_ifs <;> simp [Phase.rank]

/-- The display state never moves backwards between two pages of which the
second holds every element in the same or a later state. -/
theorem phase_rank_mono (p q : FlashPage)
    (hle : ∀ (j : Nat) (a : Alert), p.alerts[j]? = some a →
      ∃ b, q.alerts[j]? = some b ∧ AlertLe a b)
    (a b : Alert) (hab : AlertLe a b) : (phase p a).rank ≤ (phase q b).rank := by
  cases hq : inDocument q b with
  | false =>
    have h2 := phase_rank_le_two p a
    simpa [phase, hq, Phase.rank] using h2
  | true =>
    have hp := inDocument_mono p q hle a b hab hq
    unfold phase
    simp only [hq, hp, Bool.true_eq_false, if_false]
    cases hfa : a.fadedAt.isSome with
    | false =>
      simp only [Bool.false_eq_true, if_false, Phase.rank]
      exact Nat.zero_le _
    | true => simp [hab.2.2 hfa, Phase.rank]

theorem detached_of_alertOk (slack : Nat) (p : FlashPage) (i : Nat) (a : Alert)
    (hok : AlertOk slack p i a) (hd : a.detached = true) :
    5500 ≤ p.clock ∧ ∃ tr, a.removedAt = some tr := by
  unfold AlertOk at hok
  cases hf : a.fadedAt with
  | none =>
    cases hr : a.removedAt with
    | none =>
      simp only [hf, hr] at hok
      rw [hok.1] at hd
      exact absurd hd (by decide)
    | some tr => simp only [hf, hr] at hok
  | some tf =>
    cases hr : a.removedAt with
    | none =>
      simp only [hf, hr] at hok
      rw [hok.1] at hd
      exact absurd hd (by decide)
    | some tr =>
      simp only [hf, hr] at hok
      obtain ⟨_, _, _, h4, _, h6, _, h8⟩ := hok
      exact ⟨by omega, tr, rfl⟩

theorem not_detached_of_alertOk (slack : Nat) (p : FlashPage) (i : Nat) (a : Alert)
    (hok : AlertOk slack p i a) (hd : a.detached = false) :
    p.clock ≤ 5500 + 2 * slack ∧ a.removedAt = none := by
  unfold AlertOk at hok
  cases hf : a.fadedAt with
  | none =>
    cases hr : a.removedAt with
    | none =>
      simp only [hf, hr] at hok
      exact ⟨by omega, rfl⟩
    | some tr => simp only [hf, hr] at hok
  | some tf =>
    cases hr : a.removedAt with
    | none =>
      simp only [hf, hr] at hok
      exact ⟨by omega, rfl⟩
    | some tr =>
      simp only [hf, hr] at hok
      rw [hok.1] at hd
      exact absurd hd (by decide)

/-- C9 as stated fails in two points. The opacity can be set at the clock value
5000 itself, not strictly after it: the first run lets 5000 ms pass and then
runs the first timer. And an element nested in another matched element leaves
the document when the outer one is removed, which can be before its own
opacity was set: in the second run (slack 600) the outer element fades at 5000
and is removed at 5500 while the timer of the inner element has not run. -/
theorem flash_fade_can_run_at_5000 :
    (run 20 (onReady (initialPage [([], "", "")])) [.advance 5000, .fire 0]).map
      (fun p => (p.clock, p.alerts.map (fun a => (a.opacity, a.fadedAt, a.removedAt)))) =
      some (5000, [("0", some 5000, none)]) ∧
    (run 600 (onReady (initialPage [([], "", ""), ([0], "", "")]))
      [.advance 5000, .fire 0, .advance 500, .fire 1]).map
      (fun p => (p.clock, p.alerts.map (fun a => (inDocument p a, a.fadedAt, a.removedAt)))) =
      some (5500, [(false, some 5000, some 5500), (false, none, none)]) := by
  constructor <;> decide

/-- C9 (amended): in every run of the event loop that starts at page ready
(clock 0), in which a timer runs no earlier than its due time and at most
`slack` ms late, every matched element is tracked and for each of them: its
`remove()` runs no earlier than 5500 ms and no later than 5500 + 2 * slack ms;
it is out of the document no earlier than 5500 ms and no later than
5500 + 2 * slack ms; its opacity is set to 0 no earlier than 5000 ms (possibly
at 5000 ms itself), no later than 5000 + slack ms, and at least 500 ms (hence
strictly) before its own `remove()`; an element that is not nested in another
matched element is out of the document exactly when its own `remove()` has
run, so it is never removed before its opacity was set; and the display state
of every element never moves backwards in the order visible, fading,
removed. -/
theorem flash_message_timing (slack : Nat) (elements : List (List Nat × String × String))
    (evs : List LoopEvent) (p : FlashPage)
    (hrun : run slack (onReady (initialPage elements)) evs = some p) :
    p.alerts.length = elements.length ∧
    ∀ (i : Nat) (a : Alert), p.alerts[i]? = some a →
      (∀ tr, a.removedAt = some tr →
        ∃ tf, a.fadedAt = some tf ∧ tf + 500 ≤ tr ∧ tf < tr ∧ 5000 ≤ tr ∧
          5500 ≤ tr ∧ tr ≤ 5500 + 2 * slack) ∧
      (∀ tf, a.fadedAt = some tf →
        5000 ≤ tf ∧ tf ≤ 5000 + slack ∧ a.opacity = "0" ∧ a.transition = "opacity 0.5s") ∧
      (a.detached = true ↔ ∃ tr, a.removedAt = some tr) ∧
      (inDocument p a = false → 5500 ≤ p.clock) ∧
      (inDocument p a = true → p.clock ≤ 5500 + 2 * slack) ∧
      (a.ancestors = [] → (inDocument p a = false ↔ ∃ tr, a.removedAt = some tr)) ∧
      (a.fadedAt = none → p.clock ≤ 5000 + slack) ∧
      (a.ancestors = [] → a.fadedAt = none → phase p a = .visible) ∧
      (∀ (evs2 : List LoopEvent) (p2 : FlashPage) (a2 : Alert),
        run slack p evs2 = some p2 → p2.alerts[i]? = some a2 →
        (phase p a).rank ≤ (phase p2 a2).rank) := by
  have hinv := flashInv_run slack evs _ p (flashInv_onReady slack elements) hrun
  refine ⟨?_, ?_⟩
  · rw [run_length slack evs _ p hrun, onReady_initialPage]
    simp
  intro i a ha
  have hok := hinv.alerts i a ha
  have hdet : a.detached = true ↔ ∃ tr, a.removedAt = some tr := by
    constructor
    · intro hd
      exact (detached_of_alertOk slack p i a hok hd).2
    · rintro ⟨tr, htr⟩
      cases hd : a.detached with
      | true => rfl
      | false =>
        rw [(not_detached_of_alertOk slack p i a hok hd).2] at htr
        cases htr
  have hdoc0 : a.ancestors = [] → (inDocument p a = false ↔ a.detached = true) := by
    intro hanc
    unfold inDocument
    rw [hanc]
    cases a.detached <;> simp
  refine ⟨?_, ?_, hdet, ?_, ?_, ?_, ?_, ?_, ?_⟩
  · intro tr htr
    unfold AlertOk at hok
    cases hf : a.fadedAt with
    | none => simp only [hf, htr] at hok
    | some tf =>
      simp only [hf, htr] at hok
      obtain ⟨_, _, _, h4, h5, h6, h7, _⟩ := hok
      exact ⟨tf, rfl, h6, by omega, by omega, by omega, by omega⟩
  · intro tf hf
    unfold AlertOk at hok
    cases hr : a.removedAt with
    | none =>
      simp only [hf, hr] at hok
      obtain ⟨_, h2, h3, h4, h5, _⟩ := hok
      exact ⟨h4, h5, h2, h3⟩
    | some tr =>
      simp only [hf, hr] at hok
      obtain ⟨_, h2, h3, h4, h5, _⟩ := hok
      exact ⟨h4, h5, h2, h3⟩
  · intro hdoc
    unfold inDocument at hdoc
    rw [Bool.and_eq_false_iff] at hdoc
    rcases hdoc with hd | hall
    · have hd1 : a.detached = true := by
        cases hda : a.detached with
        | true => rfl
        | false => rw [hda] at hd; exact absurd hd (by decide)
      exact (detached_of_alertOk slack p i a hok hd1).1
    · rw [List.all_eq_false] at hall
      obtain ⟨j, _, hj⟩ := hall
      cases hpj : p.alerts[j]? with
      | none => rw [hpj] at hj; exact absurd rfl hj
      | some b =>
        rw [hpj] at hj
        simp only [Bool.not_eq_true, Bool.not_eq_false'] at hj
        exact (detached_of_alertOk slack p j b (hinv.alerts j b hpj) hj).1
  · intro hdoc
    unfold inDocument at hdoc
    rw [Bool.and_eq_true] at hdoc
    have hd : a.detached = false := by
      cases hda : a.detached with
      | false => rfl
      | true => rw [hda] at hdoc; exact absurd hdoc.1 (by decide)
    exact (not_detached_of_alertOk slack p i a hok hd).1
  · intro hanc
    rw [hdoc0 hanc, hdet]
  · intro hf
    unfold AlertOk at hok
    cases hr : a.removedAt with
    | none =>
      simp only [hf, hr] at hok
      exact hok.2.2
    | some tr => simp only [hf, hr] at hok
  · intro hanc hf
    have hnd : a.detached = false := by
      cases hd : a.detached with
      | false => rfl
      | true =>
        obtain ⟨tr, htr⟩ := hdet.1 hd
        unfold AlertOk at hok
        simp only [hf, htr] at hok
    have hdoc : inDocument p a = true := by
      cases hin : inDocument p a with
      | true => rfl
      | false =>
        rw [(hdoc0 hanc).1 hin] at hnd
        exact absurd hnd (by decide)
    simp [phase, hdoc, hf]
  · intro evs2 p2 a2 hrun2 ha2
    obtain ⟨b, hb, hab⟩ := run_alertLe slack evs2 p p2 hrun2 i a ha
    rw [ha2] at hb
    cases hb
    exact phase_rank_mono p p2 (run_alertLe slack evs2 p p2 hrun2) a a2 hab

/-- Witness for C9: two messages, the second inside the first; both timers of
5000 ms run 3 ms late, both timers of 500 ms run 5 ms late. -/
theorem flash_message_timing_witness :
    run 10 (onReady (initialPage [([], "", ""), ([0], "", "1")]))
      [.advance 5003, .fire 1, .fire 0, .advance 505, .fire 0, .fire 0] =
      some ⟨5508, [⟨[], true, "opacity 0.5s", "0", some 5003, some 5508⟩,
        ⟨[0], true, "opacity 0.5s", "0", some 5003, some 5508⟩], []⟩ ∧
    (∃ tf, some 5003 = some tf ∧ tf + 500 ≤ 5508 ∧ tf < 5508 ∧ 5000 ≤ 5508 ∧
      5500 ≤ 5508 ∧ 5508 ≤ 5500 + 2 * 10) :=
  have hrun : run 10 (onReady (initialPage [([], "", ""), ([0], "", "1")]))
      [.advance 5003, .fire 1, .fire 0, .advance 505, .fire 0, .fire 0] =
      some ⟨5508, [⟨[], true, "opacity 0.5s", "0", some 5003, some 5508⟩,
        ⟨[0], true, "opacity 0.5s", "0", some 5003, some 5508⟩], []⟩ := by decide
  ⟨hrun, ((flash_message_timing 10 [([], "", ""), ([0], "", "1")] _ _ hrun).2 0
    ⟨[], true, "opacity 0.5s", "0", some 5003, some 5508⟩ rfl).1 5508 rfl⟩

end MainJs
